import Mathlib

/-!
Rendering layer of the Large-Gap Gray code examples (`src/examples.cpp`).

A shallow embedding of the five output functions of `examples.cpp`

* `printBinaryCode`, `printBinaryCodeVertical`, `printBinaryCodeCArray`
* `printBinaryCodeToFile`, `printBinaryCodeToCFile`

over an explicit model of a `std::ostream` (characters written so far plus the
formatting state the functions touch: number base, fill character, pending
field width) and of `std::vector<std::bitset<20> >`.

Undefined behaviour of the C++ program (an index past the end of the vector, a
bit position past the end of the bitset, signed overflow of a loop counter, a
floating value that does not fit the `int` it is converted to) is made explicit:
the embedded functions return `Except Fault _`.  `int` has 32 bits and `long` 64.
Every loop iteration and every
container access is also appended to an event log carried next to the stream, so
that statements about the iterations and accesses of a rendering can be stated
and proved.
-/

namespace LGGC

/-! ## Data model -/

/-- Model of `std::bitset<20>`: the 20 stored bits as a natural number below `2^20`. -/
structure Bitset20 where
  val : Nat
  isLt : val < 2 ^ 20
deriving DecidableEq, Repr

/-- Model of `bitset::operator[](pos) const` for `pos < 20`: the value of bit `pos`. -/
def Bitset20.test (b : Bitset20) (pos : Nat) : Bool := b.val.testBit pos

/-- Model of `bitset::to_ulong()`: the integer whose binary digits are the stored bits. -/
def Bitset20.to_ulong (b : Bitset20) : Nat := b.val

/-- Number of bits of a `std::bitset<20>`. -/
def BITSET_SIZE : Nat := 20

/-- Largest value of the C++ type `int` (32 bits). -/
def INT_MAX : Nat := 2147483647

/-- The ways in which a run leaves defined behaviour. -/
inductive Fault where
  /-- Access `code[i]` with `i` not below `code.size()`. -/
  | vectorIndex (i size : Nat)
  /-- Access `code[i][j]` with `j` not below 20. -/
  | bitIndex (j : Nat)
  /-- Increment of an `int` loop counter that holds `INT_MAX`. -/
  | counterOverflow
  /-- Conversion to `int` of a floating value outside the range of `int`. -/
  | floatToInt
deriving DecidableEq, Repr

/-- Number base selected in `ios_base::basefield`. -/
inductive Base where
  | dec
  | hex
  | oct
deriving DecidableEq, Repr

/-- Radix belonging to a base flag. -/
def Base.radix : Base → Nat
  | .dec => 10
  | .hex => 16
  | .oct => 8

/-- Model of a `std::ostream`: the characters written so far and the formatting state
that `examples.cpp` reads or writes.  The flags no function of the file ever sets
(`boolalpha`, `showbase`, `showpos`, `uppercase`, `adjustfield`) are at their defaults. -/
structure OStream where
  out : List Char
  base : Base
  fill : Char
  width : Int
deriving DecidableEq, Repr

/-- Formatting state of a freshly constructed stream: decimal, fill `' '`, width 0. -/
def OStream.fresh : OStream := ⟨[], .dec, ' ', 0⟩

/-- A stream is in its default formatting state. -/
def OStream.isDefault (s : OStream) : Prop := s.base = .dec ∧ s.fill = ' ' ∧ s.width = 0

/-- Padding of a formatted field: with the default adjustment the fill characters go in
front, as many as the pending width exceeds the length of the field. -/
def OStream.pad (s : OStream) (field : List Char) : List Char :=
  List.replicate (s.width - (field.length : Int)).toNat s.fill ++ field

/-- A formatted insertion: the padded field is appended and the width is reset to 0. -/
def OStream.insert (s : OStream) (field : List Char) : OStream :=
  { s with out := s.out ++ s.pad field, width := 0 }

/-- Digits of an unsigned value in the given base, most significant first, lower case
(`uppercase` is not set); `0` is written "0". -/
def renderNat (b : Base) (v : Nat) : List Char := Nat.toDigits b.radix v

/-- Digits written for a `long`: signed in decimal, the 64-bit two's complement
pattern in hexadecimal and octal. -/
def renderLong (b : Base) (v : Int) : List Char :=
  match b with
  | .dec => if v < 0 then '-' :: renderNat .dec (-v).toNat else renderNat .dec v.toNat
  | b => renderNat b (v % 2 ^ 64).toNat

/-- Digits written for an `int`: signed in decimal, the 32-bit two's complement
pattern in hexadecimal and octal. -/
def renderInt (b : Base) (v : Int) : List Char :=
  match b with
  | .dec => renderLong .dec v
  | b => renderLong b (v % 2 ^ 32)

/-- Model of `stream << "literal"`. -/
def OStream.putStr (s : OStream) (str : String) : OStream := s.insert str.toList

/-- Model of `stream << v` for `unsigned long v`. -/
def OStream.putULong (s : OStream) (v : Nat) : OStream := s.insert (renderNat s.base v)

/-- Model of `stream << v` for `int v`. -/
def OStream.putInt (s : OStream) (v : Int) : OStream := s.insert (renderInt s.base v)

/-- Model of `stream << b` for `bool b` (no `boolalpha`): the value is written as the
`long` 0 or 1. -/
def OStream.putBool (s : OStream) (b : Bool) : OStream :=
  s.insert (renderLong s.base (if b then 1 else 0))

/-- Model of `stream << std::endl`: an unformatted newline (the width is not consumed). -/
def OStream.endl (s : OStream) : OStream := { s with out := s.out ++ ['\n'] }

/-- Model of `stream << std::setfill(c)`. -/
def OStream.setfill (s : OStream) (c : Char) : OStream := { s with fill := c }

/-- Model of `stream << std::setw(n)`. -/
def OStream.setw (s : OStream) (n : Int) : OStream := { s with width := n }

/-- Model of `stream << std::hex`. -/
def OStream.hex (s : OStream) : OStream := { s with base := .hex }

/-- What a run does besides writing: each loop iteration it enters and each container
access it makes, in program order. -/
inductive Event where
  /-- The body of a loop over `i` is entered with this value of `i`. -/
  | iterI (i : Nat)
  /-- The body of a loop over `j` is entered with this value of `j`. -/
  | iterJ (j : Nat)
  /-- The access `code[i][j]`. -/
  | readBit (i j : Nat)
  /-- The access `code[i]` of `code[i].to_ulong()`. -/
  | readWord (i : Nat)
deriving DecidableEq, Repr

/-- State threaded through a rendering: the stream and the log of events. -/
structure Machine where
  stream : OStream
  trace : List Event
deriving DecidableEq, Repr

/-- Append one event to the log. -/
def Machine.log (m : Machine) (e : Event) : Machine := { m with trace := m.trace ++ [e] }

/-- Evaluation of `code[i][j]`. -/
def readBit (code : List Bitset20) (i j : Nat) (m : Machine) : Except Fault (Bool × Machine) :=
  match code[i]? with
  | none => .error (.vectorIndex i code.length)
  | some b =>
    if j < BITSET_SIZE then .ok (b.test j, m.log (.readBit i j))
    else .error (.bitIndex j)

/-- Evaluation of `code[i].to_ulong()`. -/
def readWord (code : List Bitset20) (i : Nat) (m : Machine) : Except Fault (Nat × Machine) :=
  match code[i]? with
  | none => .error (.vectorIndex i code.length)
  | some b => .ok (b.to_ulong, m.log (.readWord i))

/-- The loop `for (int i = start; i < bound; i++) body`, the counter held as a natural
number (it starts at 0 and only grows).  The condition is tested before every
iteration; the increment of a counter that holds `INT_MAX` is a fault. -/
def forLoop {σ : Type} (bound : Nat) (body : Nat → σ → Except Fault σ) (i : Nat) (s : σ) :
    Except Fault σ :=
  if i < bound then
    match body i s with
    | .error e => .error e
    | .ok s' => if i < INT_MAX then forLoop bound body (i + 1) s' else .error .counterOverflow
  else .ok s
termination_by bound - i

/-- Number of counter values `i = 0, 1, ...` that satisfy `i < pow(2, bitWidth)`.  The
floating power of two is exact, so for a non-negative width these are the `2^bitWidth`
values below it; for a negative width the power lies strictly between 0 and 1, so exactly
`i = 0` satisfies the test. -/
def powBound (bitWidth : Int) : Nat := if 0 ≤ bitWidth then 2 ^ bitWidth.toNat else 1

/-- The initialisation `int maxNum = pow(2, bitWidth)`: the power truncated towards zero,
a fault when it does not fit an `int`. -/
def maxNumOf (bitWidth : Int) : Except Fault Int :=
  if bitWidth < 0 then .ok 0
  else if 2 ^ bitWidth.toNat ≤ INT_MAX then .ok ((2 ^ bitWidth.toNat : Nat) : Int)
  else .error .floatToInt

/-- The value `static_cast<int>(ceil(bitWidth/4.L))`, computed in integers (see
`fieldWidthOf_eq_ceil`). -/
def fieldWidthOf (bitWidth : Int) : Int := (bitWidth + 3) / 4

/-! ## The rendering functions -/

/-- The statement `stream << code[i][j];`. -/
def emitBit (code : List Bitset20) (i j : Nat) (m : Machine) : Except Fault Machine :=
  match readBit code i j m with
  | .error e => .error e
  | .ok (b, m) => .ok { m with stream := m.stream.putBool b }

/-- The statement `stream << std::endl;`. -/
def emitEndl (m : Machine) : Machine := { m with stream := m.stream.endl }

/-- Embedding of `printBinaryCode` (examples.cpp, lines 65-76). -/
def printBinaryCode (code : List Bitset20) (bitWidth : Int) (m : Machine) :
    Except Fault Machine :=
  match forLoop bitWidth.toNat (fun j m =>
      match forLoop (powBound bitWidth) (fun i m => emitBit code i j (m.log (.iterI i))) 0
          (m.log (.iterJ j)) with
      | .error e => .error e
      | .ok m => .ok (emitEndl m)) 0 m with
  | .error e => .error e
  | .ok m => .ok (emitEndl m)

/-- Embedding of `printBinaryCodeVertical` (examples.cpp, lines 78-89). -/
def printBinaryCodeVertical (code : List Bitset20) (bitWidth : Int) (m : Machine) :
    Except Fault Machine :=
  match forLoop (powBound bitWidth) (fun i m =>
      match forLoop bitWidth.toNat (fun j m => emitBit code i j (m.log (.iterJ j))) 0
          (m.log (.iterI i)) with
      | .error e => .error e
      | .ok m => .ok (emitEndl m)) 0 m with
  | .error e => .error e
  | .ok m => .ok (emitEndl m)

/-- The body of the loop of `printBinaryCodeCArray` (examples.cpp, lines 98-102). -/
def emitElement (code : List Bitset20) (maxNum fieldWidth : Int) (i : Nat) (m : Machine) :
    Except Fault Machine :=
  let s := (((m.stream.putStr "\t0x").setfill '0').setw fieldWidth).hex
  match readWord code i { m with stream := s } with
  | .error e => .error e
  | .ok (v, m) =>
    let s := m.stream.putULong v
    let s := if (i : Int) < maxNum - 1 then s.putStr "," else s
    .ok { m with stream := s.endl }

/-- The statement of line 94, which writes the first line of the array literal. -/
def emitHeader (bitWidth maxNum : Int) (m : Machine) : Machine :=
  { m with stream :=
      (((((m.stream.putStr "unsigned int lggc_").putInt bitWidth).putStr "[").putInt
        maxNum).putStr "] = \x7b").endl }

/-- Embedding of `printBinaryCodeCArray` (examples.cpp, lines 91-105). -/
def printBinaryCodeCArray (code : List Bitset20) (bitWidth : Int) (m : Machine) :
    Except Fault Machine :=
  match maxNumOf bitWidth with
  | .error e => .error e
  | .ok maxNum =>
    let fieldWidth := fieldWidthOf bitWidth
    match forLoop maxNum.toNat
        (fun i m => emitElement code maxNum fieldWidth i (m.log (.iterI i))) 0
        (emitHeader bitWidth maxNum m) with
    | .error e => .error e
    | .ok m => .ok { m with stream := (m.stream.putStr "\x7d;").endl }

/-- The part of the environment the file functions depend on, and what they leave
behind: whether `myfile.open(filename)` succeeds is given by `canOpen`; the result holds
the text of the file when it was opened and the error stream `std::cerr`. -/
structure FileOutcome where
  file : Option (List Char)
  cerr : OStream
deriving DecidableEq, Repr

/-- Embedding of `printBinaryCodeToFile` (examples.cpp, lines 107-119). -/
def printBinaryCodeToFile (code : List Bitset20) (bitWidth : Int) (filename : String)
    (vertical : Bool) (canOpen : String → Bool) (cerr : OStream) : Except Fault FileOutcome :=
  let myfile : Machine := ⟨OStream.fresh, []⟩
  if canOpen filename then
    if vertical then
      match printBinaryCodeVertical code bitWidth myfile with
      | .error e => .error e
      | .ok m => .ok ⟨some m.stream.out, cerr⟩
    else
      match printBinaryCode code bitWidth myfile with
      | .error e => .error e
      | .ok m => .ok ⟨some m.stream.out, cerr⟩
  else .ok ⟨none, cerr⟩

/-- Embedding of `printBinaryCodeToCFile` (examples.cpp, lines 121-131). -/
def printBinaryCodeToCFile (code : List Bitset20) (bitWidth : Int) (filename : String)
    (canOpen : String → Bool) (cerr : OStream) : Except Fault FileOutcome :=
  let myfile : Machine := ⟨OStream.fresh, []⟩
  if canOpen filename then
    match printBinaryCodeCArray code bitWidth myfile with
    | .error e => .error e
    | .ok m => .ok ⟨some m.stream.out, cerr⟩
  else .ok ⟨none, ((cerr.putStr "FAiled to write file: ").putStr filename).endl⟩

/-! ## Text-level vocabulary of the statements -/

/-- Character written for one bit. -/
def bitChar (b : Bool) : Char := if b then '1' else '0'

/-- Bit `j` of codeword `i` of a code (`false` outside the code). -/
def bitAt (code : List Bitset20) (i j : Nat) : Bool :=
  match code[i]? with
  | some b => b.test j
  | none => false

/-- The text made of the given lines, each followed by a newline. -/
def unlines (ls : List (List Char)) : List Char := ls.flatMap (fun l => l ++ ['\n'])

/-- The lines of a text: the newline ends a line; characters after the last newline
form a last, unterminated line. -/
def textLines : List Char → List (List Char)
  | [] => []
  | c :: cs =>
    if c = '\n' then [] :: textLines cs
    else
      match textLines cs with
      | [] => [[c]]
      | l :: ls => (c :: l) :: ls

/-- The stream with a text appended and the formatting state unchanged. -/
def OStream.append (s : OStream) (txt : List Char) : OStream := { s with out := s.out ++ txt }

/-- The text a run appended to a stream: what follows the characters present before. -/
def written (before after : OStream) : List Char := after.out.drop before.out.length

/-! ## Expected traces and texts -/

/-- Events of `printBinaryCode` for width `w`. -/
def hTrace (w : Nat) : List Event :=
  (List.range w).flatMap (fun j =>
    .iterJ j :: (List.range (2 ^ w)).flatMap (fun i => [.iterI i, .readBit i j]))

/-- Events of `printBinaryCodeVertical` for width `w`. -/
def vTrace (w : Nat) : List Event :=
  (List.range (2 ^ w)).flatMap (fun i =>
    .iterI i :: (List.range w).flatMap (fun j => [.iterJ j, .readBit i j]))

/-- Line `j` of the horizontal text: bit `j` of the codewords `0 .. 2^w - 1`. -/
def hRow (code : List Bitset20) (w j : Nat) : List Char :=
  (List.range (2 ^ w)).map (fun i => bitChar (bitAt code i j))

/-- Line `i` of the vertical text: the bits `0 .. w - 1` of codeword `i`. -/
def vRow (code : List Bitset20) (w i : Nat) : List Char :=
  (List.range w).map (fun j => bitChar (bitAt code i j))

/-! ## The array literal -/

/-- Value of codeword `i` of a code (`0` outside the code). -/
def wordAt (code : List Bitset20) (i : Nat) : Nat :=
  match code[i]? with
  | some b => b.to_ulong
  | none => 0

/-- The hexadecimal digits of `v`, padded in front with `'0'` up to `fw` characters. -/
def hexField (fw : Int) (v : Nat) : List Char :=
  List.replicate (fw - ((renderNat .hex v).length : Int)).toNat '0' ++ renderNat .hex v

/-- Element line `i` of the array literal of width `w` (without its newline). -/
def elemLine (code : List Bitset20) (w i : Nat) : List Char :=
  "\t0x".toList ++ hexField (fieldWidthOf w) (wordAt code i) ++
    (if i + 1 < 2 ^ w then [','] else [])

/-- First line of the array literal, the two numbers written in the given base. -/
def headerLine (base : Base) (w : Nat) : List Char :=
  "unsigned int lggc_".toList ++ renderInt base w ++ "[".toList ++
    renderInt base ((2 ^ w : Nat) : Int) ++ "] = \x7b".toList

/-- The whole array literal as written on a stream whose base flag is `base`. -/
def arrayText (base : Base) (code : List Bitset20) (w : Nat) : List Char :=
  unlines (headerLine base w :: ((List.range (2 ^ w)).map (elemLine code w) ++ ["\x7d;".toList]))

/-- Events of `printBinaryCodeCArray` for width `w`. -/
def aTrace (w : Nat) : List Event :=
  (List.range (2 ^ w)).flatMap (fun i => [.iterI i, .readWord i])

/-! ## Reading numerals back -/

/-- Value of a digit character (`0`-`9`, `a`-`f`). -/
def digitOfChar (c : Char) : Option Nat :=
  if '0' ≤ c ∧ c ≤ '9' then some (c.toNat - 48)
  else if 'a' ≤ c ∧ c ≤ 'f' then some (c.toNat - 87)
  else none

/-- One step of reading a numeral: the value so far is shifted and the digit added. -/
def readDigit (radix : Nat) (acc : Nat) (c : Char) : Option Nat :=
  match digitOfChar c with
  | some d => if d < radix then some (acc * radix + d) else none
  | none => none

/-- The number a non-empty string of digits denotes in the given radix, most significant
digit first; `none` when a character is not a digit of that radix. -/
def readNumeral (radix : Nat) (cs : List Char) : Option Nat :=
  if cs = [] then none else cs.foldlM (readDigit radix) 0

/-! ## Events -/

/-- The event is an iteration of a loop over `i`. -/
def Event.isIterI : Event → Bool
  | .iterI _ => true
  | _ => false

/-- The event is an iteration of a loop over `j`. -/
def Event.isIterJ : Event → Bool
  | .iterJ _ => true
  | _ => false

/-- The event is a container access. -/
def Event.isRead : Event → Bool
  | .readBit _ _ => true
  | .readWord _ => true
  | _ => false

/-- A logged access lies inside a vector of `size` codewords of 20 bits each. -/
def Event.inRange (size : Nat) : Event → Prop
  | .readBit i j => i < size ∧ j < BITSET_SIZE
  | .readWord i => i < size
  | _ => True

/-! ## Concrete data used in the examples -/

/-- The two-bit reflected Gray code 0, 1, 3, 2. -/
def gray2 : List Bitset20 := [⟨0, by decide⟩, ⟨1, by decide⟩, ⟨3, by decide⟩, ⟨2, by decide⟩]

/-- The four-bit reflected Gray code. -/
def gray4 : List Bitset20 :=
  [⟨0, by decide⟩, ⟨1, by decide⟩, ⟨3, by decide⟩, ⟨2, by decide⟩,
   ⟨6, by decide⟩, ⟨7, by decide⟩, ⟨5, by decide⟩, ⟨4, by decide⟩,
   ⟨12, by decide⟩, ⟨13, by decide⟩, ⟨15, by decide⟩, ⟨14, by decide⟩,
   ⟨10, by decide⟩, ⟨11, by decide⟩, ⟨9, by decide⟩, ⟨8, by decide⟩]

/-- The code `gray2` followed by one more codeword, which no rendering of width 2 reads. -/
def gray2Longer : List Bitset20 := gray2 ++ [⟨7, by decide⟩]

/-- A run that starts on a freshly constructed stream with an empty log. -/
def start : Machine := ⟨OStream.fresh, []⟩

/-- A code of width 1 whose stored bits above bit 0 are clear: the values 0, 1. -/
def pairClear : List Bitset20 := [⟨0, by decide⟩, ⟨1, by decide⟩]

/-- The same code in bit 0, with bit 1 of the first codeword set: the values 2, 1. -/
def pairHigh : List Bitset20 := [⟨2, by decide⟩, ⟨1, by decide⟩]

/-! ## The loop -/

/-- Invariant rule for `forLoop`: if every iteration below the bound succeeds and carries
`R k` to `R (k+1)`, the loop succeeds and ends in a state that satisfies `R bound`. -/
theorem forLoop_inv {σ : Type} (bound : Nat) (hb : bound ≤ INT_MAX)
    (body : Nat → σ → Except Fault σ) (R : Nat → σ → Prop)
    (hstep : ∀ k s, k < bound → R k s → ∃ s', body k s = .ok s' ∧ R (k + 1) s') :
    ∀ (n i : Nat) (s : σ), bound - i = n → i ≤ bound → R i s →
      ∃ s', forLoop bound body i s = .ok s' ∧ R bound s' := by
  intro n
  induction n with
  | zero =>
    intro i s hn hi hR
    have hib : i = bound := by omega
    subst hib
    refine ⟨s, ?_, hR⟩
    rw [forLoop]
    simp
  | succ n ih =>
    intro i s hn hi hR
    have hlt : i < bound := by omega
    obtain ⟨s1, hs1, hR1⟩ := hstep i s hlt hR
    obtain ⟨s2, hs2, hR2⟩ := ih (i + 1) s1 (by omega) (by omega) hR1
    refine ⟨s2, ?_, hR2⟩
    rw [forLoop]
    have hmax : i < INT_MAX := by omega
    simp [hlt, hs1, hmax, hs2]

/-- Fault rule for `forLoop`: if the iterations below `k0` succeed and keep `R`, and
iteration `k0` faults in every state that satisfies `R k0`, the loop faults. -/
theorem forLoop_fault {σ : Type} (bound k0 : Nat) (hk : k0 < bound) (hmax : k0 ≤ INT_MAX)
    (body : Nat → σ → Except Fault σ) (R : Nat → σ → Prop) (e : Fault)
    (hstep : ∀ k s, k < k0 → R k s → ∃ s', body k s = .ok s' ∧ R (k + 1) s')
    (hbad : ∀ s, R k0 s → body k0 s = .error e) :
    ∀ (n i : Nat) (s : σ), k0 - i = n → i ≤ k0 → R i s →
      forLoop bound body i s = .error e := by
  intro n
  induction n with
  | zero =>
    intro i s hn hi hR
    have hik : i = k0 := by omega
    subst hik
    rw [forLoop]
    simp [hk, hbad s hR]
  | succ n ih =>
    intro i s hn hi hR
    have hlt : i < k0 := by omega
    obtain ⟨s1, hs1, hR1⟩ := hstep i s hlt hR
    have h2 := ih (i + 1) s1 (by omega) (by omega) hR1
    rw [forLoop]
    have hlt2 : i < bound := by omega
    have hm : i < INT_MAX := by omega
    simp [hlt2, hs1, hm, h2]

/-! ## Digits -/

theorem radix_le (b : Base) : 2 ≤ b.radix ∧ b.radix ≤ 16 := by
  cases b <;> simp [Base.radix]

theorem toDigitsCore_eq (b : Nat) (hb : 2 ≤ b) :
    ∀ (fuel n : Nat) (ds : List Char), n < fuel →
      Nat.toDigitsCore b fuel n ds =
        (if n = 0 then ['0'] else (Nat.digits b n).reverse.map Nat.digitChar) ++ ds := by
  intro fuel
  induction fuel with
  | zero => intro n ds h; omega
  | succ fuel ih =>
    intro n ds hn
    by_cases hq : n / b = 0
    · have hlt : n < b := (Nat.div_eq_zero_iff (by omega : 0 < b)).mp hq
      by_cases h0 : n = 0
      · subst h0
        simp [Nat.toDigitsCore]
        rfl
      · simp [Nat.toDigitsCore, hq, h0, Nat.digits_of_lt b n h0 hlt, Nat.mod_eq_of_lt hlt]
    · have h0 : n ≠ 0 := by
        intro h
        subst h
        simp at hq
      have hlt : n / b < fuel := by
        have : n / b < n := Nat.div_lt_self (by omega) (by omega)
        omega
      have hd := Nat.digits_def' (by omega : 1 < b) (by omega : 0 < n)
      simp [Nat.toDigitsCore, hq, h0, ih (n / b) _ hlt, hd]

/-- The digits `renderNat` writes are the base-`b` digits of the value, most significant
first. -/
theorem renderNat_eq_digits (b : Base) (v : Nat) :
    renderNat b v =
      if v = 0 then ['0'] else (Nat.digits b.radix v).reverse.map Nat.digitChar := by
  obtain ⟨h2, _⟩ := radix_le b
  rw [renderNat, Nat.toDigits, toDigitsCore_eq b.radix h2 (v + 1) v [] (by omega)]
  simp

theorem renderInt_dec_natCast (n : Nat) : renderInt .dec (n : Int) = (Nat.repr n).toList := by
  have h : ¬ ((n : Int) < 0) := by omega
  simp [renderInt, renderLong, h, renderNat, Base.radix, Nat.repr]
  rfl

/-! ## Stream lemmas -/

theorem renderLong_bool (base : Base) (b : Bool) :
    renderLong base (if b then 1 else 0) = [bitChar b] := by
  cases base <;> cases b <;> rfl

theorem pad_of_width_zero (s : OStream) (h : s.width = 0) (field : List Char) :
    s.pad field = field := by
  have : (0 - (field.length : Int)).toNat = 0 := by omega
  simp [OStream.pad, h, this]

theorem insert_of_width_zero (s : OStream) (h : s.width = 0) (field : List Char) :
    s.insert field = s.append field := by
  cases s
  simp_all [OStream.insert, OStream.append, OStream.pad]

theorem putBool_of_width_zero (s : OStream) (h : s.width = 0) (b : Bool) :
    s.putBool b = s.append [bitChar b] := by
  rw [OStream.putBool, renderLong_bool, insert_of_width_zero s h]

theorem bitAt_of_getElem? {code : List Bitset20} {i : Nat} {b : Bitset20}
    (h : code[i]? = some b) (j : Nat) : bitAt code i j = b.test j := by
  simp [bitAt, h]

/-- The statement `stream << code[i][j];` on an index pair in range. -/
theorem emitBit_ok (code : List Bitset20) (i j : Nat) (hi : i < code.length)
    (hj : j < 20) (m : Machine) :
    emitBit code i j m =
      .ok ⟨m.stream.putBool (bitAt code i j), m.trace ++ [.readBit i j]⟩ := by
  have h : code[i]? = some code[i] := List.getElem?_eq_getElem hi
  simp [emitBit, readBit, h, BITSET_SIZE, hj, Machine.log, bitAt]

/-- A loop whose body logs its iteration and writes one bit, on indices in range. -/
theorem bitLoop (code : List Bitset20) (n : Nat) (hn : n ≤ INT_MAX)
    (fi fj : Nat → Nat) (ev : Nat → Event)
    (hi : ∀ k, k < n → fi k < code.length) (hj : ∀ k, k < n → fj k < 20) (m : Machine) :
    ∃ m', forLoop n (fun k m => emitBit code (fi k) (fj k) (m.log (ev k))) 0 m = .ok m' ∧
      m'.trace = m.trace ++ (List.range n).flatMap (fun k => [ev k, .readBit (fi k) (fj k)]) ∧
      (m.stream.width = 0 → m'.stream =
        m.stream.append ((List.range n).map (fun k => bitChar (bitAt code (fi k) (fj k))))) := by
  have key := forLoop_inv n hn
    (fun k m => emitBit code (fi k) (fj k) (m.log (ev k)))
    (fun k s =>
      s.trace = m.trace ++ (List.range k).flatMap (fun k => [ev k, .readBit (fi k) (fj k)]) ∧
      (m.stream.width = 0 → s.stream =
        m.stream.append ((List.range k).map (fun k => bitChar (bitAt code (fi k) (fj k))))))
    (by
      intro k s hk hR
      refine ⟨_, emitBit_ok code (fi k) (fj k) (hi k hk) (hj k hk) _, ?_, ?_⟩
      · simp [Machine.log, hR.1, List.range_succ, List.flatMap_append]
      · intro h0
        have hs := hR.2 h0
        have hw : (s.log (ev k)).stream.width = 0 := by
          simp [Machine.log, hs, h0, OStream.append]
        rw [putBool_of_width_zero _ hw]
        simp [Machine.log, hs, List.range_succ, OStream.append])
    n 0 m (Nat.sub_zero _) (Nat.zero_le _)
    (by
      refine ⟨by simp, ?_⟩
      intro _
      simp [OStream.append])
  exact key

@[simp]
theorem append_width (s : OStream) (t : List Char) : (s.append t).width = s.width := rfl

@[simp]
theorem append_out (s : OStream) (t : List Char) : (s.append t).out = s.out ++ t := rfl

@[simp]
theorem append_base (s : OStream) (t : List Char) : (s.append t).base = s.base := rfl

@[simp]
theorem append_fill (s : OStream) (t : List Char) : (s.append t).fill = s.fill := rfl

@[simp]
theorem append_append (s : OStream) (t u : List Char) :
    (s.append t).append u = s.append (t ++ u) := by
  simp [OStream.append]

@[simp]
theorem append_nil (s : OStream) : s.append [] = s := by
  simp [OStream.append]

theorem endl_eq_append (s : OStream) : s.endl = s.append ['\n'] := rfl

theorem two_pow_le_INT_MAX {w : Nat} (hw : w ≤ 20) : 2 ^ w ≤ INT_MAX := by
  have h : 2 ^ w ≤ 2 ^ 20 := Nat.pow_le_pow_right (by decide) hw
  have h2 : (2 : Nat) ^ 20 ≤ INT_MAX := by decide
  exact le_trans h h2

@[simp]
theorem powBound_natCast (w : Nat) : powBound (w : Int) = 2 ^ w := by
  simp [powBound]

/-- Run of `printBinaryCode` on a code that is long enough: it succeeds, logs exactly
`hTrace w`, and (with no pending width) appends the `w` rows and an empty line. -/
theorem printBinaryCode_run (code : List Bitset20) (w : Nat) (hw : w ≤ 20)
    (hlen : 2 ^ w ≤ code.length) (m : Machine) :
    ∃ m', printBinaryCode code w m = .ok m' ∧ m'.trace = m.trace ++ hTrace w ∧
      (m.stream.width = 0 → m'.stream =
        m.stream.append (unlines ((List.range w).map (hRow code w) ++ [[]]))) := by
  have hpow := two_pow_le_INT_MAX hw
  have hwmax : w ≤ INT_MAX := le_trans hw (by decide)
  obtain ⟨m1, h1, ht1, hs1⟩ := forLoop_inv w hwmax
    (fun j m =>
      match forLoop (powBound (w : Int)) (fun i m => emitBit code i j (m.log (.iterI i))) 0
          (m.log (.iterJ j)) with
      | .error e => .error e
      | .ok m => .ok (emitEndl m))
    (fun k s =>
      s.trace = m.trace ++ (List.range k).flatMap (fun j =>
        .iterJ j :: (List.range (2 ^ w)).flatMap (fun i => [.iterI i, .readBit i j])) ∧
      (m.stream.width = 0 → s.stream =
        m.stream.append (unlines ((List.range k).map (hRow code w)))))
    (by
      intro j s hj hR
      obtain ⟨m2, h2, ht2, hs2⟩ := bitLoop code (2 ^ w) hpow (fun k => k) (fun _ => j)
        (fun i => .iterI i) (fun k hk => by dsimp only; omega) (fun k _ => by dsimp only; omega) (s.log (.iterJ j))
      refine ⟨emitEndl m2, ?_, ?_, ?_⟩
      · simp only [powBound_natCast]
        rw [h2]
      · simp [emitEndl, ht2, Machine.log, hR.1, List.range_succ, List.flatMap_append]
      · intro h0
        have hs := hR.2 h0
        have hw0 : (s.log (Event.iterJ j)).stream.width = 0 := by
          simp [Machine.log, hs, h0]
        simp [emitEndl, hs2 hw0, Machine.log, hs, endl_eq_append, List.range_succ, unlines,
          List.flatMap_append, hRow])
    w 0 m (Nat.sub_zero _) (Nat.zero_le _)
    (by
      refine ⟨by simp, ?_⟩
      intro _
      simp [unlines])
  refine ⟨emitEndl m1, ?_, ?_, ?_⟩
  · simp only [printBinaryCode, Int.toNat_ofNat]
    rw [h1]
  · simp [emitEndl, ht1, hTrace]
  · intro h0
    simp [emitEndl, hs1 h0, endl_eq_append, unlines, List.flatMap_append]

/-- Run of `printBinaryCodeVertical` on a code that is long enough: it succeeds, logs
exactly `vTrace w`, and (with no pending width) appends the `2^w` rows and an empty line. -/
theorem printBinaryCodeVertical_run (code : List Bitset20) (w : Nat) (hw : w ≤ 20)
    (hlen : 2 ^ w ≤ code.length) (m : Machine) :
    ∃ m', printBinaryCodeVertical code w m = .ok m' ∧ m'.trace = m.trace ++ vTrace w ∧
      (m.stream.width = 0 → m'.stream =
        m.stream.append (unlines ((List.range (2 ^ w)).map (vRow code w) ++ [[]]))) := by
  have hpow := two_pow_le_INT_MAX hw
  have hwmax : w ≤ INT_MAX := le_trans hw (by decide)
  obtain ⟨m1, h1, ht1, hs1⟩ := forLoop_inv (2 ^ w) hpow
    (fun i m =>
      match forLoop (w : Int).toNat (fun j m => emitBit code i j (m.log (.iterJ j))) 0
          (m.log (.iterI i)) with
      | .error e => .error e
      | .ok m => .ok (emitEndl m))
    (fun k s =>
      s.trace = m.trace ++ (List.range k).flatMap (fun i =>
        .iterI i :: (List.range w).flatMap (fun j => [.iterJ j, .readBit i j])) ∧
      (m.stream.width = 0 → s.stream =
        m.stream.append (unlines ((List.range k).map (vRow code w)))))
    (by
      intro i s hi hR
      obtain ⟨m2, h2, ht2, hs2⟩ := bitLoop code w hwmax (fun _ => i) (fun k => k)
        (fun j => .iterJ j) (fun k _ => by dsimp only; omega) (fun k hk => by dsimp only; omega) (s.log (.iterI i))
      refine ⟨emitEndl m2, ?_, ?_, ?_⟩
      · simp only [Int.toNat_ofNat]
        rw [h2]
      · simp [emitEndl, ht2, Machine.log, hR.1, List.range_succ, List.flatMap_append]
      · intro h0
        have hs := hR.2 h0
        have hw0 : (s.log (Event.iterI i)).stream.width = 0 := by
          simp [Machine.log, hs, h0]
        simp [emitEndl, hs2 hw0, Machine.log, hs, endl_eq_append, List.range_succ, unlines,
          List.flatMap_append, vRow])
    (2 ^ w) 0 m (Nat.sub_zero _) (Nat.zero_le _)
    (by
      refine ⟨by simp, ?_⟩
      intro _
      simp [unlines])
  refine ⟨emitEndl m1, ?_, ?_, ?_⟩
  · simp only [printBinaryCodeVertical, powBound_natCast]
    rw [h1]
  · simp [emitEndl, ht1, vTrace]
  · intro h0
    simp [emitEndl, hs1 h0, endl_eq_append, unlines, List.flatMap_append]

/-! ## Lines of a text -/

theorem textLines_line (l rest : List Char) (hl : '\n' ∉ l) :
    textLines (l ++ '\n' :: rest) = l :: textLines rest := by
  induction l with
  | nil => simp [textLines]
  | cons c cs ih =>
    have hc : c ≠ '\n' := fun h => hl (by simp [h])
    have hcs : '\n' ∉ cs := fun h => hl (by simp [h])
    simp [textLines, hc, ih hcs]

theorem textLines_unlines (ls : List (List Char)) (h : ∀ l ∈ ls, '\n' ∉ l) :
    textLines (unlines ls) = ls := by
  induction ls with
  | nil => simp [unlines, textLines]
  | cons l ls ih =>
    have h1 : '\n' ∉ l := h l (by simp)
    have h2 : ∀ l' ∈ ls, '\n' ∉ l' := fun l' hl' => h l' (by simp [hl'])
    have := textLines_line l (unlines ls) h1
    simp only [unlines, List.flatMap_cons, List.append_assoc, List.singleton_append] at this ⊢
    rw [this]
    congr 1
    exact ih h2

theorem written_append (s : OStream) (t : List Char) : written s (s.append t) = t := by
  simp [written, OStream.append]

theorem bitChar_cases (b : Bool) : bitChar b = '0' ∨ bitChar b = '1' := by
  cases b <;> simp [bitChar]

theorem bitChar_ne_newline (b : Bool) : bitChar b ≠ '\n' := by
  cases b <;> simp [bitChar]

theorem newline_not_mem_hRow (code : List Bitset20) (w j : Nat) : '\n' ∉ hRow code w j := by
  intro h
  simp only [hRow, List.mem_map] at h
  obtain ⟨i, _, hi⟩ := h
  exact bitChar_ne_newline _ hi

theorem newline_not_mem_vRow (code : List Bitset20) (w i : Nat) : '\n' ∉ vRow code w i := by
  intro h
  simp only [vRow, List.mem_map] at h
  obtain ⟨j, _, hj⟩ := h
  exact bitChar_ne_newline _ hj

theorem hRow_getElem? (code : List Bitset20) (w j i : Nat) (hi : i < 2 ^ w) :
    (hRow code w j)[i]? = some (bitChar (bitAt code i j)) := by
  simp [hRow, List.getElem?_map, List.getElem?_range hi]

theorem vRow_getElem? (code : List Bitset20) (w i j : Nat) (hj : j < w) :
    (vRow code w i)[j]? = some (bitChar (bitAt code i j)) := by
  simp [vRow, List.getElem?_map, List.getElem?_range hj]

theorem rows_getElem? (f : Nat → List Char) (n k : Nat) (hk : k < n) :
    ((List.range n).map f)[k]? = some (f k) := by
  simp [List.getElem?_map, List.getElem?_range hk]

theorem putStr_of_width_zero (s : OStream) (h : s.width = 0) (str : String) :
    s.putStr str = s.append str.toList := by
  rw [OStream.putStr, insert_of_width_zero s h]

theorem putInt_of_width_zero (s : OStream) (h : s.width = 0) (v : Int) :
    s.putInt v = s.append (renderInt s.base v) := by
  rw [OStream.putInt, insert_of_width_zero s h]

theorem maxNumOf_natCast (w : Nat) (hw : w ≤ 20) : maxNumOf (w : Int) = .ok ((2 ^ w : Nat) : Int) := by
  have h := two_pow_le_INT_MAX hw
  have h2 : ¬ ((w : Int) < 0) := by omega
  simp [maxNumOf, h2, h]

theorem emitHeader_of_width_zero (w : Nat) (m : Machine) (h0 : m.stream.width = 0) :
    emitHeader (w : Int) ((2 ^ w : Nat) : Int) m =
      ⟨m.stream.append (headerLine m.stream.base w ++ ['\n']), m.trace⟩ := by
  simp [emitHeader, putStr_of_width_zero, putInt_of_width_zero, h0, endl_eq_append, headerLine]

/-- One iteration of the loop of `printBinaryCodeCArray` on an index in range. -/
theorem emitElement_ok (code : List Bitset20) (w i : Nat) (hi : i < code.length)
    (m : Machine) (h0 : m.stream.width = 0) :
    emitElement code ((2 ^ w : Nat) : Int) (fieldWidthOf w) i m =
      .ok ⟨⟨m.stream.out ++ (elemLine code w i ++ ['\n']), .hex, '0', 0⟩,
        m.trace ++ [.readWord i]⟩ := by
  have h : code[i]? = some code[i] := List.getElem?_eq_getElem hi
  have hc : ((i : Int) < ((2 ^ w : Nat) : Int) - 1) ↔ i + 1 < 2 ^ w := by omega
  have hc2 : ((i : Int) < (2 : Int) ^ w - 1) ↔ i + 1 < 2 ^ w := by
    have h3 := hc
    push_cast at h3
    exact h3
  by_cases hlast : i + 1 < 2 ^ w
  · have hc' : (i : Int) < (2 : Int) ^ w - 1 := hc2.mpr hlast
    simp [emitElement, readWord, h, putStr_of_width_zero, h0, OStream.setfill, OStream.setw,
      OStream.hex, OStream.putULong, OStream.insert, OStream.pad, OStream.append, Machine.log,
      OStream.endl, elemLine, hexField, wordAt, hlast, hc', OStream.putStr]
  · have hc' : ¬ (i : Int) < (2 : Int) ^ w - 1 := fun h => hlast (hc2.mp h)
    simp [emitElement, readWord, h, putStr_of_width_zero, h0, OStream.setfill, OStream.setw,
      OStream.hex, OStream.putULong, OStream.insert, OStream.pad, OStream.append, Machine.log,
      OStream.endl, elemLine, hexField, wordAt, hlast, hc']

/-- Run of `printBinaryCodeCArray` on a code that is long enough: it succeeds, logs
exactly `aTrace w`, and (with no pending width) appends the array literal, whose first
line is written in the base the stream had on entry, and leaves the stream in
hexadecimal mode with fill character `'0'`. -/
theorem printBinaryCodeCArray_run (code : List Bitset20) (w : Nat) (hw : w ≤ 20)
    (hlen : 2 ^ w ≤ code.length) (m : Machine) :
    ∃ m', printBinaryCodeCArray code w m = .ok m' ∧ m'.trace = m.trace ++ aTrace w ∧
      (m.stream.width = 0 → m'.stream =
        ⟨m.stream.out ++ arrayText m.stream.base code w, .hex, '0', 0⟩) := by
  have hpow := two_pow_le_INT_MAX hw
  have hpos : 0 < 2 ^ w := Nat.two_pow_pos w
  obtain ⟨m1, h1, ht1, hs1⟩ := forLoop_inv (2 ^ w) hpow
    (fun i m => emitElement code ((2 ^ w : Nat) : Int) (fieldWidthOf w) i (m.log (.iterI i)))
    (fun k s =>
      s.trace = m.trace ++ (List.range k).flatMap (fun i => [.iterI i, .readWord i]) ∧
      (m.stream.width = 0 → s.stream.width = 0 ∧
        s.stream.out = m.stream.out ++
          unlines (headerLine m.stream.base w :: (List.range k).map (elemLine code w)) ∧
        (0 < k → s.stream.base = .hex ∧ s.stream.fill = '0')))
    (by
      intro i s hi hR
      by_cases h0 : m.stream.width = 0
      · obtain ⟨hsw, hso, _⟩ := hR.2 h0
        have hw0 : (s.log (Event.iterI i)).stream.width = 0 := by simp [Machine.log, hsw]
        refine ⟨_, emitElement_ok code w i (by omega) _ hw0, ?_, ?_⟩
        · simp [Machine.log, hR.1, List.range_succ, List.flatMap_append]
        · intro _
          simp [Machine.log, hso, List.range_succ, unlines, List.flatMap_append]
      · have hil : i < code.length := by omega
        have h : code[i]? = some code[i] := List.getElem?_eq_getElem hil
        refine ⟨_, by simp only [emitElement, readWord, h]; rfl, ?_, ?_⟩
        · split_ifs <;>
            simp [Machine.log, hR.1, List.range_succ, List.flatMap_append]
        · intro h
          exact absurd h h0)
    (2 ^ w) 0 (emitHeader (w : Int) ((2 ^ w : Nat) : Int) m) (Nat.sub_zero _) (Nat.zero_le _)
    (by
      refine ⟨by simp [emitHeader], ?_⟩
      intro h0
      rw [emitHeader_of_width_zero w m h0]
      simp [unlines, h0])
  refine ⟨{ m1 with stream := (m1.stream.putStr "\x7d;").endl }, ?_, ?_, ?_⟩
  · simp only [printBinaryCodeCArray, maxNumOf_natCast w hw, Int.toNat_ofNat]
    rw [h1]
  · simp [ht1, aTrace]
  · intro h0
    obtain ⟨hsw, hso, hsf⟩ := hs1 h0
    obtain ⟨hb, hf⟩ := hsf hpos
    rw [putStr_of_width_zero _ hsw, endl_eq_append]
    cases hm1 : m1.stream
    simp_all [OStream.append, arrayText, unlines, List.flatMap_append]

theorem digitOfChar_digitChar (d : Nat) (hd : d < 16) : digitOfChar (Nat.digitChar d) = some d := by
  interval_cases d <;> rfl

theorem digitChar_mem_hex (d : Nat) (hd : d < 16) :
    Nat.digitChar d ∈ "0123456789abcdef".toList := by
  interval_cases d <;> decide

theorem foldlM_readDigit_digits (r : Nat) (hr : r ≤ 16) (L : List Nat) (hL : ∀ d ∈ L, d < r) :
    ∀ acc, (L.reverse.map Nat.digitChar).foldlM (readDigit r) acc =
      some (acc * r ^ L.length + Nat.ofDigits r L) := by
  induction L with
  | nil => intro acc; simp [List.foldlM]
  | cons d L ih =>
    intro acc
    have hd : d < r := hL d (by simp)
    have hL' : ∀ d ∈ L, d < r := fun x hx => hL x (by simp [hx])
    simp only [List.reverse_cons, List.map_append, List.map_cons, List.map_nil,
      List.foldlM_append, ih hL' acc]
    simp only [Option.some_bind, Option.bind_eq_bind, List.foldlM, readDigit,
      digitOfChar_digitChar d (by omega), hd, if_true, Nat.ofDigits_cons, List.length_cons, pure]
    congr 1
    ring

theorem foldlM_readDigit_zeros (r : Nat) (hr : 0 < r) (k : Nat) :
    (List.replicate k '0').foldlM (readDigit r) 0 = some 0 := by
  induction k with
  | zero => simp [List.foldlM]
  | succ k ih =>
    have h0 : readDigit r 0 '0' = some 0 := by
      have : digitOfChar '0' = some 0 := rfl
      simp [readDigit, this, hr]
    simp [List.replicate_succ, List.foldlM, h0, ih]

theorem renderNat_ne_nil (b : Base) (v : Nat) : renderNat b v ≠ [] := by
  rw [renderNat_eq_digits]
  split_ifs with h
  · simp
  · simpa [Nat.digits_eq_nil_iff_eq_zero] using h

theorem foldlM_readDigit_renderNat (b : Base) (v : Nat) :
    (renderNat b v).foldlM (readDigit b.radix) 0 = some v := by
  obtain ⟨h2, h16⟩ := radix_le b
  rw [renderNat_eq_digits]
  split_ifs with h
  · subst h
    have h0 : readDigit b.radix 0 '0' = some 0 := by
      have : digitOfChar '0' = some 0 := rfl
      have hr : 0 < b.radix := by omega
      simp [readDigit, this, hr]
    simp [List.foldlM, h0]
  · rw [foldlM_readDigit_digits b.radix h16 _ (fun d hd => Nat.digits_lt_base (by omega) hd) 0]
    simp [Nat.ofDigits_digits]

/-- Reading back what `renderNat` writes gives the number written. -/
theorem readNumeral_renderNat (b : Base) (v : Nat) :
    readNumeral b.radix (renderNat b v) = some v := by
  simp [readNumeral, renderNat_ne_nil, foldlM_readDigit_renderNat]

/-- Reading back a zero-padded hexadecimal field gives the number written. -/
theorem readNumeral_hexField (fw : Int) (v : Nat) : readNumeral 16 (hexField fw v) = some v := by
  have hne : hexField fw v ≠ [] := by
    simp [hexField, renderNat_ne_nil]
  have h := foldlM_readDigit_renderNat .hex v
  simp only [Base.radix] at h
  rw [readNumeral, if_neg hne]
  simp [hexField, List.foldlM_append, foldlM_readDigit_zeros 16 (by decide), h]

theorem renderNat_mem_hex (b : Base) (v : Nat) :
    ∀ c ∈ renderNat b v, c ∈ "0123456789abcdef".toList := by
  obtain ⟨h2, h16⟩ := radix_le b
  intro c hc
  rw [renderNat_eq_digits] at hc
  split_ifs at hc with h
  · simp only [List.mem_singleton] at hc
    subst hc
    decide
  · simp only [List.mem_map, List.mem_reverse] at hc
    obtain ⟨d, hd, rfl⟩ := hc
    have : d < b.radix := Nat.digits_lt_base (by omega) hd
    exact digitChar_mem_hex d (by omega)

theorem hexField_mem_hex (fw : Int) (v : Nat) :
    ∀ c ∈ hexField fw v, c ∈ "0123456789abcdef".toList := by
  intro c hc
  simp only [hexField, List.mem_append, List.mem_replicate] at hc
  rcases hc with ⟨_, rfl⟩ | hc
  · decide
  · exact renderNat_mem_hex .hex v c hc

/-- A value below `2^w` has at most `(w + 3) / 4` hexadecimal digits (for `1 ≤ w`). -/
theorem renderNat_hex_length_le (w v : Nat) (hw : 1 ≤ w) (hv : v < 2 ^ w) :
    (renderNat .hex v).length ≤ (w + 3) / 4 := by
  rw [renderNat_eq_digits]
  split_ifs with h
  · simp only [List.length_singleton]
    omega
  · simp only [List.length_map, List.length_reverse, Base.radix]
    have h1 : 16 ^ (Nat.digits 16 v).length ≤ 16 * v :=
      Nat.base_pow_length_digits_le 16 v (by decide) h
    have h2 : 2 ^ w ≤ 16 ^ ((w + 3) / 4) := by
      have : (16 : Nat) = 2 ^ 4 := by norm_num
      rw [this, ← pow_mul]
      exact Nat.pow_le_pow_right (by decide) (by omega)
    have h3 : 16 ^ (Nat.digits 16 v).length < 16 ^ ((w + 3) / 4 + 1) := by
      rw [pow_succ]
      omega
    have h4 := (Nat.pow_lt_pow_iff_right (by decide : 1 < 16)).mp h3
    omega

theorem fieldWidthOf_natCast (w : Nat) : fieldWidthOf (w : Int) = (((w + 3) / 4 : Nat) : Int) := by
  unfold fieldWidthOf
  omega

/-- The field width is the ceiling of a quarter of the bit width, as the source writes it. -/
theorem fieldWidthOf_eq_ceil (bitWidth : Int) : fieldWidthOf bitWidth = ⌈(bitWidth : ℚ) / 4⌉ := by
  symm
  rw [Int.ceil_eq_iff]
  unfold fieldWidthOf
  have h1 : 4 * ((bitWidth + 3) / 4) ≤ bitWidth + 3 := by omega
  have h2 : bitWidth + 3 < 4 * ((bitWidth + 3) / 4) + 4 := by omega
  have h1' : (4 : ℚ) * (((bitWidth + 3) / 4 : Int) : ℚ) ≤ (bitWidth : ℚ) + 3 := by exact_mod_cast h1
  have h2' : (bitWidth : ℚ) + 3 < 4 * (((bitWidth + 3) / 4 : Int) : ℚ) + 4 := by exact_mod_cast h2
  constructor
  · linarith
  · have h3 : bitWidth ≤ 4 * ((bitWidth + 3) / 4) := by omega
    have h3' : (bitWidth : ℚ) ≤ 4 * (((bitWidth + 3) / 4 : Int) : ℚ) := by exact_mod_cast h3
    linarith

theorem natCeil_quarter (w : Nat) : ⌈(w : ℚ) / 4⌉₊ = (w + 3) / 4 := by
  have h := fieldWidthOf_eq_ceil (w : Int)
  rw [fieldWidthOf_natCast] at h
  have h2 : ⌈(w : ℚ) / 4⌉₊ = (⌈((w : Int) : ℚ) / 4⌉).toNat := rfl
  rw [h2, ← h]
  exact Int.toNat_natCast _

theorem hexField_length (w v : Nat) (hw : 1 ≤ w) (hv : v < 2 ^ w) :
    (hexField (fieldWidthOf w) v).length = (w + 3) / 4 := by
  have h := renderNat_hex_length_le w v hw hv
  simp only [hexField, fieldWidthOf_natCast, List.length_append, List.length_replicate]
  omega

/-! ## Shape of the array literal -/

/-- The run of `printBinaryCodeCArray` as an equation. -/
theorem printBinaryCodeCArray_eq (code : List Bitset20) (w : Nat) (hw : w ≤ 20)
    (hlen : 2 ^ w ≤ code.length) (m : Machine) (h0 : m.stream.width = 0) :
    printBinaryCodeCArray code w m =
      .ok ⟨⟨m.stream.out ++ arrayText m.stream.base code w, .hex, '0', 0⟩,
        m.trace ++ aTrace w⟩ := by
  obtain ⟨m', h, ht, hs⟩ := printBinaryCodeCArray_run code w hw hlen m
  rw [h]
  cases m'
  simp only [Except.ok.injEq, Machine.mk.injEq]
  exact ⟨hs h0, ht⟩

/-- The run of `printBinaryCode` as an equation. -/
theorem printBinaryCode_eq (code : List Bitset20) (w : Nat) (hw : w ≤ 20)
    (hlen : 2 ^ w ≤ code.length) (m : Machine) (h0 : m.stream.width = 0) :
    printBinaryCode code w m =
      .ok ⟨m.stream.append (unlines ((List.range w).map (hRow code w) ++ [[]])),
        m.trace ++ hTrace w⟩ := by
  obtain ⟨m', h, ht, hs⟩ := printBinaryCode_run code w hw hlen m
  rw [h]
  cases m'
  simp only [Except.ok.injEq, Machine.mk.injEq]
  exact ⟨hs h0, ht⟩

/-- The run of `printBinaryCodeVertical` as an equation. -/
theorem printBinaryCodeVertical_eq (code : List Bitset20) (w : Nat) (hw : w ≤ 20)
    (hlen : 2 ^ w ≤ code.length) (m : Machine) (h0 : m.stream.width = 0) :
    printBinaryCodeVertical code w m =
      .ok ⟨m.stream.append (unlines ((List.range (2 ^ w)).map (vRow code w) ++ [[]])),
        m.trace ++ vTrace w⟩ := by
  obtain ⟨m', h, ht, hs⟩ := printBinaryCodeVertical_run code w hw hlen m
  rw [h]
  cases m'
  simp only [Except.ok.injEq, Machine.mk.injEq]
  exact ⟨hs h0, ht⟩

theorem headerLine_dec (w : Nat) :
    headerLine .dec w = "unsigned int lggc_".toList ++ (Nat.repr w).toList ++ "[".toList ++
      (Nat.repr (2 ^ w)).toList ++ "] = \x7b".toList := by
  simp only [headerLine, renderInt_dec_natCast]

theorem not_mem_renderNat (b : Base) (v : Nat) (c : Char)
    (hc : c ∉ "0123456789abcdef".toList) : c ∉ renderNat b v :=
  fun h => hc (renderNat_mem_hex b v c h)

theorem newline_not_mem_headerLine_dec (w : Nat) : '\n' ∉ headerLine .dec w := by
  have h : ∀ n : Nat, '\n' ∉ renderInt .dec (n : Int) := by
    intro n
    have hn : ¬ ((n : Int) < 0) := by omega
    simp only [renderInt, renderLong, hn, if_false]
    exact not_mem_renderNat _ _ _ (by decide)
  intro hmem
  simp only [headerLine, List.mem_append] at hmem
  rcases hmem with (((hm | hm) | hm) | hm) | hm
  · exact absurd hm (by decide)
  · exact h w hm
  · exact absurd hm (by decide)
  · exact h (2 ^ w) hm
  · exact absurd hm (by decide)

theorem not_mem_hexField (fw : Int) (v : Nat) (c : Char)
    (hc : c ∉ "0123456789abcdef".toList) : c ∉ hexField fw v :=
  fun h => hc (hexField_mem_hex fw v c h)

theorem newline_not_mem_elemLine (code : List Bitset20) (w i : Nat) :
    '\n' ∉ elemLine code w i := by
  intro hmem
  simp only [elemLine, List.mem_append] at hmem
  rcases hmem with (hm | hm) | hm
  · exact absurd hm (by decide)
  · exact not_mem_hexField _ _ _ (by decide) hm
  · split_ifs at hm
    · exact absurd hm (by decide)
    · exact absurd hm (by simp)

theorem comma_not_mem_last_elemLine (code : List Bitset20) (w i : Nat) (hi : ¬ i + 1 < 2 ^ w) :
    ',' ∉ elemLine code w i := by
  intro hmem
  simp only [elemLine, hi, if_false, List.append_nil, List.mem_append] at hmem
  rcases hmem with hm | hm
  · exact absurd hm (by decide)
  · exact not_mem_hexField _ _ _ (by decide) hm

theorem getLast?_elemLine (code : List Bitset20) (w i : Nat) (hi : i + 1 < 2 ^ w) :
    (elemLine code w i).getLast? = some ',' := by
  simp only [elemLine, hi, if_true]
  exact List.getLast?_concat _

theorem wordAt_of_getElem? {code : List Bitset20} {i : Nat} {b : Bitset20}
    (h : code[i]? = some b) : wordAt code i = b.to_ulong := by
  simp [wordAt, h]

theorem getLast?_arrayText (base : Base) (code : List Bitset20) (w : Nat) :
    (arrayText base code w).getLast? = some '\n' := by
  have h : arrayText base code w =
      (unlines (headerLine base w :: (List.range (2 ^ w)).map (elemLine code w)) ++
        "\x7d;".toList) ++ ['\n'] := by
    simp [arrayText, unlines, List.flatMap_append]
  rw [h]
  exact List.getLast?_concat _

/-! ## Dependence on the stored words -/

/-- Two loops whose bodies agree below the bound agree. -/
theorem forLoop_congr {σ : Type} (bound : Nat) (body1 body2 : Nat → σ → Except Fault σ)
    (h : ∀ k s, k < bound → body1 k s = body2 k s) :
    ∀ (n i : Nat) (s : σ), bound - i = n →
      forLoop bound body1 i s = forLoop bound body2 i s := by
  intro n
  induction n with
  | zero =>
    intro i s hn
    have hge : ¬ i < bound := by omega
    rw [forLoop, forLoop]
    simp [hge]
  | succ n ih =>
    intro i s hn
    have hlt : i < bound := by omega
    rw [forLoop, forLoop.eq_1 bound body2]
    simp only [hlt, if_true, h i s hlt]
    cases body2 i s with
    | error e => rfl
    | ok s' =>
      simp only
      split_ifs
      · exact ih (i + 1) s' (by omega)
      · rfl

/-- Codewords that agree on all 20 bit positions hold the same value. -/
theorem val_eq_of_test_eq (a b : Bitset20) (h : ∀ j, j < 20 → a.test j = b.test j) :
    a.to_ulong = b.to_ulong := by
  apply Nat.eq_of_testBit_eq
  intro j
  by_cases hj : j < 20
  · exact h j hj
  · have h20 : (2 : Nat) ^ 20 ≤ 2 ^ j := Nat.pow_le_pow_right (by decide) (by omega)
    have ha : a.val < 2 ^ j := lt_of_lt_of_le a.isLt h20
    have hb : b.val < 2 ^ j := lt_of_lt_of_le b.isLt h20
    simp [Bitset20.to_ulong, Nat.testBit_lt_two_pow ha, Nat.testBit_lt_two_pow hb]

/-! ## Counting events -/

theorem countP_flatMap_const {α : Type} (p : Event → Bool) (f : α → List Event) (c : Nat)
    (l : List α) (h : ∀ a ∈ l, (f a).countP p = c) :
    (l.flatMap f).countP p = l.length * c := by
  induction l with
  | nil => simp
  | cons a l ih =>
    have h1 := h a (by simp)
    have h2 := ih (fun x hx => h x (by simp [hx]))
    simp only [List.flatMap_cons, List.countP_append, h1, h2, List.length_cons]
    ring

theorem hTrace_counts (w : Nat) :
    (hTrace w).countP Event.isIterJ = w ∧ (hTrace w).countP Event.isIterI = w * 2 ^ w ∧
      (hTrace w).countP Event.isRead = w * 2 ^ w := by
  have hin : ∀ (j : Nat) (p : Event → Bool) (c : Nat),
      (∀ i, ([Event.iterI i, Event.readBit i j] : List Event).countP p = c) →
      ((List.range (2 ^ w)).flatMap
        (fun i => [Event.iterI i, Event.readBit i j])).countP p = 2 ^ w * c := by
    intro j p c hc
    rw [countP_flatMap_const p _ c _ (fun i _ => hc i)]
    simp
  refine ⟨?_, ?_, ?_⟩
  · rw [hTrace, countP_flatMap_const Event.isIterJ _ 1 _ (fun j _ => ?_)]
    · simp
    · rw [List.countP_cons, hin j Event.isIterJ 0 (fun i => by simp [List.countP_cons, Event.isIterJ])]
      simp [Event.isIterJ]
  · rw [hTrace, countP_flatMap_const Event.isIterI _ (2 ^ w) _ (fun j _ => ?_)]
    · simp
    · rw [List.countP_cons, hin j Event.isIterI 1 (fun i => by simp [List.countP_cons, Event.isIterI])]
      simp [Event.isIterI]
  · rw [hTrace, countP_flatMap_const Event.isRead _ (2 ^ w) _ (fun j _ => ?_)]
    · simp
    · rw [List.countP_cons, hin j Event.isRead 1 (fun i => by simp [List.countP_cons, Event.isRead])]
      simp [Event.isRead]

theorem vTrace_counts (w : Nat) :
    (vTrace w).countP Event.isIterI = 2 ^ w ∧ (vTrace w).countP Event.isIterJ = 2 ^ w * w ∧
      (vTrace w).countP Event.isRead = 2 ^ w * w := by
  have hin : ∀ (i : Nat) (p : Event → Bool) (c : Nat),
      (∀ j, ([Event.iterJ j, Event.readBit i j] : List Event).countP p = c) →
      ((List.range w).flatMap
        (fun j => [Event.iterJ j, Event.readBit i j])).countP p = w * c := by
    intro i p c hc
    rw [countP_flatMap_const p _ c _ (fun j _ => hc j)]
    simp
  refine ⟨?_, ?_, ?_⟩
  · rw [vTrace, countP_flatMap_const Event.isIterI _ 1 _ (fun i _ => ?_)]
    · simp
    · rw [List.countP_cons, hin i Event.isIterI 0 (fun j => by simp [List.countP_cons, Event.isIterI])]
      simp [Event.isIterI]
  · rw [vTrace, countP_flatMap_const Event.isIterJ _ w _ (fun i _ => ?_)]
    · simp
    · rw [List.countP_cons, hin i Event.isIterJ 1 (fun j => by simp [List.countP_cons, Event.isIterJ])]
      simp [Event.isIterJ]
  · rw [vTrace, countP_flatMap_const Event.isRead _ w _ (fun i _ => ?_)]
    · simp
    · rw [List.countP_cons, hin i Event.isRead 1 (fun j => by simp [List.countP_cons, Event.isRead])]
      simp [Event.isRead]

theorem aTrace_counts (w : Nat) :
    (aTrace w).countP Event.isIterI = 2 ^ w ∧ (aTrace w).countP Event.isRead = 2 ^ w := by
  refine ⟨?_, ?_⟩
  · rw [aTrace, countP_flatMap_const Event.isIterI _ 1 _
      (fun i _ => by simp [List.countP_cons, Event.isIterI])]
    simp
  · rw [aTrace, countP_flatMap_const Event.isRead _ 1 _
      (fun i _ => by simp [List.countP_cons, Event.isRead])]
    simp

theorem hTrace_inRange (w size : Nat) (hw : w ≤ 20) (hsize : 2 ^ w ≤ size) :
    ∀ e ∈ hTrace w, e.inRange size := by
  intro e he
  simp only [hTrace, List.mem_flatMap, List.mem_range, List.mem_cons, List.mem_singleton,
    List.not_mem_nil, or_false] at he
  obtain ⟨j, hj, rfl | ⟨i, hi, rfl | rfl⟩⟩ := he
  · trivial
  · trivial
  · exact ⟨by omega, by simp only [BITSET_SIZE]; omega⟩

theorem vTrace_inRange (w size : Nat) (hw : w ≤ 20) (hsize : 2 ^ w ≤ size) :
    ∀ e ∈ vTrace w, e.inRange size := by
  intro e he
  simp only [vTrace, List.mem_flatMap, List.mem_range, List.mem_cons, List.mem_singleton,
    List.not_mem_nil, or_false] at he
  obtain ⟨i, hi, rfl | ⟨j, hj, rfl | rfl⟩⟩ := he
  · trivial
  · trivial
  · exact ⟨by omega, by simp only [BITSET_SIZE]; omega⟩

theorem aTrace_inRange (w size : Nat) (hsize : 2 ^ w ≤ size) :
    ∀ e ∈ aTrace w, e.inRange size := by
  intro e he
  simp only [aTrace, List.mem_flatMap, List.mem_range, List.mem_cons, List.mem_singleton,
    List.not_mem_nil, or_false] at he
  obtain ⟨i, hi, rfl | rfl⟩ := he
  · trivial
  · show i < size
    omega

/-! ## Codes that are too short -/

theorem emitBit_past_end (code : List Bitset20) (j : Nat) (m : Machine) :
    emitBit code code.length j m = .error (.vectorIndex code.length code.length) := by
  simp [emitBit, readBit]

theorem emitElement_past_end (code : List Bitset20) (maxNum fw : Int) (m : Machine) :
    emitElement code maxNum fw code.length m =
      .error (.vectorIndex code.length code.length) := by
  simp [emitElement, readWord]

theorem emitElement_defined (code : List Bitset20) (maxNum fw : Int) (i : Nat)
    (hi : i < code.length) (m : Machine) :
    ∃ m', emitElement code maxNum fw i m = .ok m' := by
  have h : code[i]? = some code[i] := List.getElem?_eq_getElem hi
  simp only [emitElement, readWord, h]
  exact ⟨_, rfl⟩

theorem length_le_INT_MAX_of_short {code : List Bitset20} {w : Nat} (hw : w ≤ 20)
    (hshort : code.length < 2 ^ w) : code.length ≤ INT_MAX :=
  le_trans (Nat.le_of_lt hshort) (two_pow_le_INT_MAX hw)

/-- On a code shorter than `2^w`, `printBinaryCode` of a width `1 ≤ w ≤ 20` reaches the
access `code[code.size()]` in its first row. -/
theorem printBinaryCode_short (code : List Bitset20) (w : Nat) (m : Machine) (hw1 : 1 ≤ w)
    (hw : w ≤ 20) (hshort : code.length < 2 ^ w) :
    printBinaryCode code w m = .error (.vectorIndex code.length code.length) := by
  have hinner : ∀ s : Machine,
      forLoop (2 ^ w) (fun i m => emitBit code i 0 (m.log (.iterI i))) 0 s =
        .error (.vectorIndex code.length code.length) := by
    intro s
    exact forLoop_fault (2 ^ w) code.length hshort (length_le_INT_MAX_of_short hw hshort)
      (fun i m => emitBit code i 0 (m.log (.iterI i))) (fun _ _ => True) _
      (fun k s hk _ => ⟨_, emitBit_ok code k 0 hk (by decide) _, trivial⟩)
      (fun s _ => emitBit_past_end code 0 _) code.length 0 s (Nat.sub_zero _) (Nat.zero_le _)
      trivial
  have houter := forLoop_fault w 0 hw1 (Nat.zero_le _)
    (fun j m =>
      match forLoop (powBound (w : Int)) (fun i m => emitBit code i j (m.log (.iterI i))) 0
          (m.log (.iterJ j)) with
      | .error e => .error e
      | .ok m => .ok (emitEndl m))
    (fun _ _ => True) (.vectorIndex code.length code.length)
    (fun k s hk _ => absurd hk (Nat.not_lt_zero k))
    (fun s _ => by
      simp only [powBound_natCast]
      rw [hinner])
    0 0 m rfl (Nat.le_refl 0) trivial
  simp only [printBinaryCode, Int.toNat_ofNat]
  rw [houter]

/-- On a code shorter than `2^w`, `printBinaryCodeVertical` of a width `1 ≤ w ≤ 20`
reaches the access `code[code.size()]` after the rows of the codewords present. -/
theorem printBinaryCodeVertical_short (code : List Bitset20) (w : Nat) (m : Machine)
    (hw1 : 1 ≤ w) (hw : w ≤ 20) (hshort : code.length < 2 ^ w) :
    printBinaryCodeVertical code w m = .error (.vectorIndex code.length code.length) := by
  have hwmax : w ≤ INT_MAX := le_trans hw (by decide)
  have hbad : ∀ s : Machine,
      forLoop w (fun j m => emitBit code code.length j (m.log (.iterJ j))) 0 s =
        .error (.vectorIndex code.length code.length) := by
    intro s
    exact forLoop_fault w 0 hw1 (Nat.zero_le _)
      (fun j m => emitBit code code.length j (m.log (.iterJ j))) (fun _ _ => True) _
      (fun k s hk _ => absurd hk (Nat.not_lt_zero k))
      (fun s _ => emitBit_past_end code 0 _) 0 0 s rfl (Nat.le_refl 0) trivial
  have houter := forLoop_fault (2 ^ w) code.length hshort
    (length_le_INT_MAX_of_short hw hshort)
    (fun i m =>
      match forLoop (w : Int).toNat (fun j m => emitBit code i j (m.log (.iterJ j))) 0
          (m.log (.iterI i)) with
      | .error e => .error e
      | .ok m => .ok (emitEndl m))
    (fun _ _ => True) (.vectorIndex code.length code.length)
    (fun k s hk _ => by
      obtain ⟨m2, h2, _, _⟩ := bitLoop code w hwmax (fun _ => k) (fun j => j)
        (fun j => .iterJ j) (fun _ _ => hk) (fun j hj => by dsimp only; omega)
        (s.log (.iterI k))
      refine ⟨emitEndl m2, ?_, trivial⟩
      simp only [Int.toNat_ofNat]
      rw [h2])
    (fun s _ => by
      simp only [Int.toNat_ofNat]
      rw [hbad])
    code.length 0 m (Nat.sub_zero _) (Nat.zero_le _) trivial
  simp only [printBinaryCodeVertical, powBound_natCast]
  rw [houter]

/-- On a code shorter than `2^w`, `printBinaryCodeCArray` of a width `0 ≤ w ≤ 20` reaches
the access `code[code.size()]`. -/
theorem printBinaryCodeCArray_short (code : List Bitset20) (w : Nat) (m : Machine)
    (hw : w ≤ 20) (hshort : code.length < 2 ^ w) :
    printBinaryCodeCArray code w m = .error (.vectorIndex code.length code.length) := by
  have hloop := forLoop_fault (2 ^ w) code.length hshort
    (length_le_INT_MAX_of_short hw hshort)
    (fun i m => emitElement code ((2 ^ w : Nat) : Int) (fieldWidthOf w) i (m.log (.iterI i)))
    (fun _ _ => True) (.vectorIndex code.length code.length)
    (fun k s hk _ => by
      obtain ⟨m', h'⟩ := emitElement_defined code ((2 ^ w : Nat) : Int) (fieldWidthOf w) k hk
        (s.log (.iterI k))
      exact ⟨m', h', trivial⟩)
    (fun s _ => emitElement_past_end code _ _ _)
    code.length 0 (emitHeader (w : Int) ((2 ^ w : Nat) : Int) m) (Nat.sub_zero _)
    (Nat.zero_le _) trivial
  simp only [printBinaryCodeCArray, maxNumOf_natCast w hw, Int.toNat_ofNat]
  rw [hloop]

/-- At width 0 `printBinaryCode` runs no iteration and reads nothing, whatever the code. -/
theorem printBinaryCode_width_zero (code : List Bitset20) (m : Machine) :
    printBinaryCode code 0 m = .ok (emitEndl m) := by
  simp only [printBinaryCode, Int.toNat_zero]
  rw [forLoop]
  simp

/-- At width 0 `printBinaryCodeVertical` runs one outer iteration with an empty inner
loop and reads nothing, whatever the code. -/
theorem printBinaryCodeVertical_width_zero (code : List Bitset20) (m : Machine) :
    printBinaryCodeVertical code 0 m = .ok (emitEndl (emitEndl (m.log (.iterI 0)))) := by
  have h1 : powBound 0 = 1 := by decide
  simp only [printBinaryCodeVertical, Int.toNat_zero, h1]
  rw [forLoop]
  have h2 : ∀ s : Machine,
      forLoop 0 (fun j m => emitBit code 0 j (m.log (.iterJ j))) 0 s = .ok s := by
    intro s
    rw [forLoop]
    simp
  have h3 : (0 : Nat) < INT_MAX := by decide
  simp only [h2, h3, if_true, Nat.lt_one_iff]
  rw [forLoop]
  simp

/-! ## The file functions -/

/-- When the file cannot be opened, `printBinaryCodeToCFile` renders nothing and writes
its message and the file name to the error stream. -/
theorem printBinaryCodeToCFile_open_failure (code : List Bitset20) (bitWidth : Int)
    (filename : String) (cerr : OStream) :
    printBinaryCodeToCFile code bitWidth filename (fun _ => false) cerr =
      .ok ⟨none, ((cerr.putStr "FAiled to write file: ").putStr filename).endl⟩ := by
  simp [printBinaryCodeToCFile]

/-- When the file can be opened, the file functions render into it and leave the error
stream as it was. -/
theorem file_functions_open_success (code : List Bitset20) (w : Nat) (filename : String)
    (vertical : Bool) (cerr : OStream) (hw : w ≤ 20) (hlen : 2 ^ w ≤ code.length) :
    printBinaryCodeToFile code w filename vertical (fun _ => true) cerr =
        .ok ⟨some (if vertical then unlines ((List.range (2 ^ w)).map (vRow code w) ++ [[]])
          else unlines ((List.range w).map (hRow code w) ++ [[]])), cerr⟩ ∧
      printBinaryCodeToCFile code w filename (fun _ => true) cerr =
        .ok ⟨some (arrayText .dec code w), cerr⟩ := by
  have hh := printBinaryCode_eq code w hw hlen ⟨OStream.fresh, []⟩ rfl
  have hv := printBinaryCodeVertical_eq code w hw hlen ⟨OStream.fresh, []⟩ rfl
  have ha := printBinaryCodeCArray_eq code w hw hlen ⟨OStream.fresh, []⟩ rfl
  refine ⟨?_, ?_⟩
  · cases vertical
    · simp only [printBinaryCodeToFile, hh, if_true, Bool.false_eq_true, if_false]
      simp [OStream.fresh]
    · simp only [printBinaryCodeToFile, hv, if_true]
      simp [OStream.fresh]
  · simp only [printBinaryCodeToCFile, ha, if_true]
    simp [OStream.fresh]

/-! ## Statelessness of the bit-plane renderings -/

/-- The text `printBinaryCode` writes on a stream with no pending width does not depend on
the base and fill character the stream is in, and the stream keeps its formatting state. -/
theorem printBinaryCode_stateless (code : List Bitset20) (w : Nat) (m1 m2 : Machine)
    (hw : w ≤ 20) (hlen : 2 ^ w ≤ code.length) (h1 : m1.stream.width = 0)
    (h2 : m2.stream.width = 0) :
    ∃ m1' m2', printBinaryCode code w m1 = .ok m1' ∧ printBinaryCode code w m2 = .ok m2' ∧
      written m1.stream m1'.stream = written m2.stream m2'.stream ∧
      m1'.stream.base = m1.stream.base ∧ m1'.stream.fill = m1.stream.fill ∧
      m1'.stream.width = 0 :=
  ⟨_, _, printBinaryCode_eq code w hw hlen m1 h1, printBinaryCode_eq code w hw hlen m2 h2,
    by simp [written_append], rfl, rfl, h1⟩

/-- The text `printBinaryCodeVertical` writes on a stream with no pending width does not
depend on the base and fill character the stream is in, and the stream keeps its
formatting state. -/
theorem printBinaryCodeVertical_stateless (code : List Bitset20) (w : Nat) (m1 m2 : Machine)
    (hw : w ≤ 20) (hlen : 2 ^ w ≤ code.length) (h1 : m1.stream.width = 0)
    (h2 : m2.stream.width = 0) :
    ∃ m1' m2', printBinaryCodeVertical code w m1 = .ok m1' ∧
      printBinaryCodeVertical code w m2 = .ok m2' ∧
      written m1.stream m1'.stream = written m2.stream m2'.stream ∧
      m1'.stream.base = m1.stream.base ∧ m1'.stream.fill = m1.stream.fill ∧
      m1'.stream.width = 0 :=
  ⟨_, _, printBinaryCodeVertical_eq code w hw hlen m1 h1,
    printBinaryCodeVertical_eq code w hw hlen m2 h2, by simp [written_append], rfl, rfl, h1⟩

/-! ## Claims on the bit-plane renderings -/

/-- C2: for every width `0 ≤ w ≤ 20` and every code of at least `2^w` codewords,
`printBinaryCode` (on a stream with no pending field width) returns, and the text it
appends is `w` lines followed by one empty line; each of the `w` lines has exactly `2^w`
characters, each `'0'` or `'1'`, and character `i` of line `j` is the value of bit `j` of
codeword `i`. -/
theorem printBinaryCode_lines (code : List Bitset20) (w : Nat) (m : Machine)
    (hw : w ≤ 20) (hlen : 2 ^ w ≤ code.length) (h0 : m.stream.width = 0) :
    ∃ m' rows, printBinaryCode code (w : Int) m = .ok m' ∧
      m'.stream.out = m.stream.out ++ unlines (rows ++ [[]]) ∧
      rows.length = w ∧
      ∀ j, j < w → ∃ row, rows[j]? = some row ∧ row.length = 2 ^ w ∧
        (∀ c ∈ row, c = '0' ∨ c = '1') ∧
        ∀ i, i < 2 ^ w → ∃ b, code[i]? = some b ∧
          row[i]? = some (if b.test j then '1' else '0') := by
  obtain ⟨m', hrun, _, hs⟩ := printBinaryCode_run code w hw hlen m
  refine ⟨m', (List.range w).map (hRow code w), hrun, ?_, by simp, ?_⟩
  · rw [hs h0]
    rfl
  · intro j hj
    refine ⟨hRow code w j, rows_getElem? _ w j hj, by simp [hRow], ?_, ?_⟩
    · intro c hc
      simp only [hRow, List.mem_map] at hc
      obtain ⟨i, _, rfl⟩ := hc
      exact bitChar_cases _
    · intro i hi
      have hil : i < code.length := by omega
      refine ⟨code[i], List.getElem?_eq_getElem hil, ?_⟩
      rw [hRow_getElem? code w j i hi,
        bitAt_of_getElem? (List.getElem?_eq_getElem hil) j]
      rfl

/-- Witness of C2: the two-bit reflected Gray code 0, 1, 3, 2 at width 2. -/
theorem printBinaryCode_lines_witness :
    (2 ≤ 20 ∧ 2 ^ 2 ≤ gray2.length ∧ start.stream.width = 0) ∧
    ∃ m' rows, printBinaryCode gray2 ((2 : Nat) : Int) start = .ok m' ∧
      m'.stream.out = start.stream.out ++ unlines (rows ++ [[]]) ∧
      rows.length = 2 ∧
      ∀ j, j < 2 → ∃ row, rows[j]? = some row ∧ row.length = 2 ^ 2 ∧
        (∀ c ∈ row, c = '0' ∨ c = '1') ∧
        ∀ i, i < 2 ^ 2 → ∃ b, gray2[i]? = some b ∧
          row[i]? = some (if b.test j then '1' else '0') :=
  ⟨⟨by decide, by decide, rfl⟩,
    printBinaryCode_lines gray2 2 start (by decide) (by decide) rfl⟩

/-- C3: for every width `0 ≤ w ≤ 20` and every code of at least `2^w` codewords,
`printBinaryCodeVertical` (on a stream with no pending field width) returns, and the
text it appends is `2^w` lines followed by one empty line; line `i` has exactly `w`
characters, each `'0'` or `'1'`, and character `j` of line `i` is the value of bit `j` of
codeword `i` (the least significant bit comes first). -/
theorem printBinaryCodeVertical_lines (code : List Bitset20) (w : Nat) (m : Machine)
    (hw : w ≤ 20) (hlen : 2 ^ w ≤ code.length) (h0 : m.stream.width = 0) :
    ∃ m' rows, printBinaryCodeVertical code (w : Int) m = .ok m' ∧
      m'.stream.out = m.stream.out ++ unlines (rows ++ [[]]) ∧
      rows.length = 2 ^ w ∧
      ∀ i, i < 2 ^ w → ∃ row b, rows[i]? = some row ∧ code[i]? = some b ∧
        row.length = w ∧ (∀ c ∈ row, c = '0' ∨ c = '1') ∧
        ∀ j, j < w → row[j]? = some (if b.test j then '1' else '0') := by
  obtain ⟨m', hrun, _, hs⟩ := printBinaryCodeVertical_run code w hw hlen m
  refine ⟨m', (List.range (2 ^ w)).map (vRow code w), hrun, ?_, by simp, ?_⟩
  · rw [hs h0]
    rfl
  · intro i hi
    have hil : i < code.length := by omega
    refine ⟨vRow code w i, code[i], rows_getElem? _ (2 ^ w) i hi,
      List.getElem?_eq_getElem hil, by simp [vRow], ?_, ?_⟩
    · intro c hc
      simp only [vRow, List.mem_map] at hc
      obtain ⟨j, _, rfl⟩ := hc
      exact bitChar_cases _
    · intro j hj
      rw [vRow_getElem? code w i j hj,
        bitAt_of_getElem? (List.getElem?_eq_getElem hil) j]
      rfl

/-- Witness of C3: the two-bit reflected Gray code 0, 1, 3, 2 at width 2. -/
theorem printBinaryCodeVertical_lines_witness :
    (2 ≤ 20 ∧ 2 ^ 2 ≤ gray2.length ∧ start.stream.width = 0) ∧
    ∃ m' rows, printBinaryCodeVertical gray2 ((2 : Nat) : Int) start = .ok m' ∧
      m'.stream.out = start.stream.out ++ unlines (rows ++ [[]]) ∧
      rows.length = 2 ^ 2 ∧
      ∀ i, i < 2 ^ 2 → ∃ row b, rows[i]? = some row ∧ gray2[i]? = some b ∧
        row.length = 2 ∧ (∀ c ∈ row, c = '0' ∨ c = '1') ∧
        ∀ j, j < 2 → row[j]? = some (if b.test j then '1' else '0') :=
  ⟨⟨by decide, by decide, rfl⟩,
    printBinaryCodeVertical_lines gray2 2 start (by decide) (by decide) rfl⟩

/-- C1: for every width `w ≤ 20` (in particular `1 ≤ w ≤ 20`) and every code of at least
`2^w` codewords, on streams with no pending field width both renderings return; the
lines of the text written by `printBinaryCode` without the trailing blank line form a
`w`-by-`2^w` grid, the lines of the text written by `printBinaryCodeVertical` without
the trailing blank line form a `2^w`-by-`w` grid, and the second is the transpose of the
first: character `i` of horizontal line `j` is character `j` of vertical line `i`. -/
theorem horizontal_transpose_eq_vertical (code : List Bitset20) (w : Nat)
    (mh mv : Machine) (hw : w ≤ 20) (hlen : 2 ^ w ≤ code.length)
    (hh : mh.stream.width = 0) (hv : mv.stream.width = 0) :
    ∃ mh' mv' H V, printBinaryCode code (w : Int) mh = .ok mh' ∧
      printBinaryCodeVertical code (w : Int) mv = .ok mv' ∧
      mh'.stream.out = mh.stream.out ++ written mh.stream mh'.stream ∧
      mv'.stream.out = mv.stream.out ++ written mv.stream mv'.stream ∧
      textLines (written mh.stream mh'.stream) = H ++ [[]] ∧
      textLines (written mv.stream mv'.stream) = V ++ [[]] ∧
      H.length = w ∧ (∀ r ∈ H, r.length = 2 ^ w) ∧
      V.length = 2 ^ w ∧ (∀ r ∈ V, r.length = w) ∧
      ∀ j, j < w → ∀ i, i < 2 ^ w → ∃ c,
        (H[j]? >>= fun r => r[i]?) = some c ∧ (V[i]? >>= fun r => r[j]?) = some c := by
  obtain ⟨mh', hrunh, _, hsh⟩ := printBinaryCode_run code w hw hlen mh
  obtain ⟨mv', hrunv, _, hsv⟩ := printBinaryCodeVertical_run code w hw hlen mv
  refine ⟨mh', mv', (List.range w).map (hRow code w), (List.range (2 ^ w)).map (vRow code w),
    hrunh, hrunv, ?_, ?_, ?_, ?_, by simp, ?_, by simp, ?_, ?_⟩
  · rw [hsh hh, written_append]
    rfl
  · rw [hsv hv, written_append]
    rfl
  · rw [hsh hh, written_append]
    apply textLines_unlines
    intro l hl
    simp only [List.mem_append, List.mem_map, List.mem_singleton] at hl
    rcases hl with ⟨j, _, rfl⟩ | rfl
    · exact newline_not_mem_hRow code w j
    · simp
  · rw [hsv hv, written_append]
    apply textLines_unlines
    intro l hl
    simp only [List.mem_append, List.mem_map, List.mem_singleton] at hl
    rcases hl with ⟨i, _, rfl⟩ | rfl
    · exact newline_not_mem_vRow code w i
    · simp
  · intro r hr
    simp only [List.mem_map] at hr
    obtain ⟨j, _, rfl⟩ := hr
    simp [hRow]
  · intro r hr
    simp only [List.mem_map] at hr
    obtain ⟨i, _, rfl⟩ := hr
    simp [vRow]
  · intro j hj i hi
    refine ⟨bitChar (bitAt code i j), ?_, ?_⟩
    · rw [rows_getElem? _ w j hj]
      exact hRow_getElem? code w j i hi
    · rw [rows_getElem? _ (2 ^ w) i hi]
      exact vRow_getElem? code w i j hj

/-- Witness of C1: the two-bit reflected Gray code 0, 1, 3, 2 at width 2. -/
theorem horizontal_transpose_eq_vertical_witness :
    (2 ≤ 20 ∧ 2 ^ 2 ≤ gray2.length ∧ start.stream.width = 0) ∧
    ∃ mh' mv' H V, printBinaryCode gray2 ((2 : Nat) : Int) start = .ok mh' ∧
      printBinaryCodeVertical gray2 ((2 : Nat) : Int) start = .ok mv' ∧
      mh'.stream.out = start.stream.out ++ written start.stream mh'.stream ∧
      mv'.stream.out = start.stream.out ++ written start.stream mv'.stream ∧
      textLines (written start.stream mh'.stream) = H ++ [[]] ∧
      textLines (written start.stream mv'.stream) = V ++ [[]] ∧
      H.length = 2 ∧ (∀ r ∈ H, r.length = 2 ^ 2) ∧
      V.length = 2 ^ 2 ∧ (∀ r ∈ V, r.length = 2) ∧
      ∀ j, j < 2 → ∀ i, i < 2 ^ 2 → ∃ c,
        (H[j]? >>= fun r => r[i]?) = some c ∧ (V[i]? >>= fun r => r[j]?) = some c :=
  ⟨⟨by decide, by decide, rfl⟩,
    horizontal_transpose_eq_vertical gray2 2 start start (by decide) (by decide) rfl rfl⟩

/-! ## Claims on the array literal -/

/-- C4: for every width `1 ≤ w ≤ 20` and every code of at least `2^w` codewords whose
values are below `2^w`, `printBinaryCodeCArray` on a stream in its default formatting
state returns, and element line `i` of its text is a tab, the prefix `0x` and then
exactly `ceil(w/4)` hexadecimal digits (followed by a comma except on the last line);
read as a base-16 numeral the digits give the value of codeword `i`. -/
theorem printBinaryCodeCArray_elements (code : List Bitset20) (w : Nat) (m : Machine)
    (hw1 : 1 ≤ w) (hw : w ≤ 20) (hlen : 2 ^ w ≤ code.length)
    (hval : ∀ i, i < 2 ^ w → ∀ b, code[i]? = some b → b.to_ulong < 2 ^ w)
    (hd : m.stream.isDefault) :
    ∃ m' header elems, printBinaryCodeCArray code (w : Int) m = .ok m' ∧
      m'.stream.out = m.stream.out ++ unlines (header :: (elems ++ ["\x7d;".toList])) ∧
      '\n' ∉ header ∧ elems.length = 2 ^ w ∧
      ∀ i, i < 2 ^ w → ∃ b digits, code[i]? = some b ∧
        elems[i]? = some ("\t0x".toList ++ digits ++ (if i + 1 < 2 ^ w then [','] else [])) ∧
        digits.length = ⌈(w : ℚ) / 4⌉₊ ∧
        (∀ c ∈ digits, c ∈ "0123456789abcdef".toList) ∧
        readNumeral 16 digits = some b.to_ulong := by
  obtain ⟨hbase, _, h0⟩ := hd
  refine ⟨_, headerLine .dec w, (List.range (2 ^ w)).map (elemLine code w),
    printBinaryCodeCArray_eq code w hw hlen m h0, ?_, newline_not_mem_headerLine_dec w,
    by simp, ?_⟩
  · simp [arrayText, hbase]
  · intro i hi
    have hil : i < code.length := by omega
    have hb : code[i]? = some code[i] := List.getElem?_eq_getElem hil
    refine ⟨code[i], hexField (fieldWidthOf w) (code[i]).to_ulong, hb, ?_, ?_,
      hexField_mem_hex _ _, readNumeral_hexField _ _⟩
    · rw [rows_getElem? _ (2 ^ w) i hi]
      simp [elemLine, wordAt_of_getElem? hb]
    · rw [natCeil_quarter]
      exact hexField_length w _ hw1 (hval i hi _ hb)

/-- Witness of C4: the two-bit reflected Gray code 0, 1, 3, 2 at width 2. -/
theorem printBinaryCodeCArray_elements_witness :
    (1 ≤ 2 ∧ 2 ≤ 20 ∧ 2 ^ 2 ≤ gray2.length ∧
      (∀ i, i < 2 ^ 2 → ∀ b, gray2[i]? = some b → b.to_ulong < 2 ^ 2) ∧
      start.stream.isDefault) ∧
    ∃ m' header elems, printBinaryCodeCArray gray2 ((2 : Nat) : Int) start = .ok m' ∧
      m'.stream.out = start.stream.out ++ unlines (header :: (elems ++ ["\x7d;".toList])) ∧
      '\n' ∉ header ∧ elems.length = 2 ^ 2 ∧
      ∀ i, i < 2 ^ 2 → ∃ b digits, gray2[i]? = some b ∧
        elems[i]? = some ("\t0x".toList ++ digits ++ (if i + 1 < 2 ^ 2 then [','] else [])) ∧
        digits.length = ⌈((2 : Nat) : ℚ) / 4⌉₊ ∧
        (∀ c ∈ digits, c ∈ "0123456789abcdef".toList) ∧
        readNumeral 16 digits = some b.to_ulong :=
  have hval : ∀ i, i < 2 ^ 2 → ∀ b, gray2[i]? = some b → b.to_ulong < 2 ^ 2 := by
    intro i hi b hb
    have hi4 : i < 4 := hi
    interval_cases i <;> simp [gray2] at hb <;> subst hb <;> decide
  ⟨⟨by decide, by decide, by decide, hval, rfl, rfl, rfl⟩,
    printBinaryCodeCArray_elements gray2 2 start (by decide) (by decide) (by decide) hval
      ⟨rfl, rfl, rfl⟩⟩

/-- C9: for every width `0 ≤ w ≤ 20` and every code of at least `2^w` codewords, the
text `printBinaryCodeCArray` writes on a stream in its default formatting state is a
well-formed array literal: the first line `unsigned int lggc_<w>[<2^w>] = {` with both
numbers in decimal, then exactly `2^w` element lines, each but the last ending in a
comma and the last one without a comma, then the closing line `};`. -/
theorem printBinaryCodeCArray_literal (code : List Bitset20) (w : Nat) (m : Machine)
    (hw : w ≤ 20) (hlen : 2 ^ w ≤ code.length) (hd : m.stream.isDefault) :
    ∃ m' elems, printBinaryCodeCArray code (w : Int) m = .ok m' ∧
      m'.stream.out = m.stream.out ++ written m.stream m'.stream ∧
      textLines (written m.stream m'.stream) =
        ("unsigned int lggc_".toList ++ (Nat.repr w).toList ++ "[".toList ++
          (Nat.repr (2 ^ w)).toList ++ "] = \x7b".toList) :: (elems ++ ["\x7d;".toList]) ∧
      (written m.stream m'.stream).getLast? = some '\n' ∧
      elems.length = 2 ^ w ∧
      (∀ i, i + 1 < 2 ^ w → ∃ e, elems[i]? = some e ∧ e.getLast? = some ',') ∧
      (∃ e, elems[2 ^ w - 1]? = some e ∧ ',' ∉ e) := by
  obtain ⟨hbase, _, h0⟩ := hd
  have hpos : 0 < 2 ^ w := Nat.two_pow_pos w
  have hwr : written m.stream
      (⟨m.stream.out ++ arrayText m.stream.base code w, .hex, '0', 0⟩ : OStream) =
      arrayText .dec code w := by
    simp [written, hbase]
  refine ⟨_, (List.range (2 ^ w)).map (elemLine code w),
    printBinaryCodeCArray_eq code w hw hlen m h0, ?_, ?_, ?_, by simp, ?_, ?_⟩
  · rw [hwr]
    simp [hbase]
  · rw [hwr, ← headerLine_dec]
    apply textLines_unlines
    intro l hl
    simp only [List.mem_cons, List.mem_append, List.mem_map, List.mem_singleton,
      List.not_mem_nil, or_false] at hl
    rcases hl with rfl | ⟨i, _, rfl⟩ | rfl
    · exact newline_not_mem_headerLine_dec w
    · exact newline_not_mem_elemLine code w i
    · decide
  · rw [hwr]
    exact getLast?_arrayText .dec code w
  · intro i hi
    exact ⟨elemLine code w i, rows_getElem? _ (2 ^ w) i (by omega), getLast?_elemLine code w i hi⟩
  · exact ⟨elemLine code w (2 ^ w - 1), rows_getElem? _ (2 ^ w) _ (by omega),
      comma_not_mem_last_elemLine code w _ (by omega)⟩

/-- Witness of C9: the two-bit reflected Gray code 0, 1, 3, 2 at width 2. -/
theorem printBinaryCodeCArray_literal_witness :
    (2 ≤ 20 ∧ 2 ^ 2 ≤ gray2.length ∧ start.stream.isDefault) ∧
    ∃ m' elems, printBinaryCodeCArray gray2 ((2 : Nat) : Int) start = .ok m' ∧
      m'.stream.out = start.stream.out ++ written start.stream m'.stream ∧
      textLines (written start.stream m'.stream) =
        ("unsigned int lggc_".toList ++ (Nat.repr 2).toList ++ "[".toList ++
          (Nat.repr (2 ^ 2)).toList ++ "] = \x7b".toList) :: (elems ++ ["\x7d;".toList]) ∧
      (written start.stream m'.stream).getLast? = some '\n' ∧
      elems.length = 2 ^ 2 ∧
      (∀ i, i + 1 < 2 ^ 2 → ∃ e, elems[i]? = some e ∧ e.getLast? = some ',') ∧
      (∃ e, elems[2 ^ 2 - 1]? = some e ∧ ',' ∉ e) :=
  ⟨⟨by decide, by decide, rfl, rfl, rfl⟩,
    printBinaryCodeCArray_literal gray2 2 start (by decide) (by decide) ⟨rfl, rfl, rfl⟩⟩

/-- C7, the claim as stated fails: the codes 0, 1 and 2, 1 agree on bit 0 at both indices
(width 1), and `printBinaryCodeCArray` writes `0x0` for the first codeword of the one and
`0x2` for the first codeword of the other. -/
theorem printBinaryCodeCArray_high_bits_counterexample :
    (1 ≤ 1 ∧ 1 ≤ 20 ∧ 2 ^ 1 ≤ pairClear.length ∧ 2 ^ 1 ≤ pairHigh.length ∧
      ∀ i, i < 2 ^ 1 → ∀ j, j < 1 → ∃ a b, pairClear[i]? = some a ∧ pairHigh[i]? = some b ∧
        a.test j = b.test j) ∧
    printBinaryCodeCArray pairClear 1 start =
      .ok ⟨⟨"unsigned int lggc_1[2] = \x7b\n\t0x0,\n\t0x1\n\x7d;\n".toList, .hex, '0', 0⟩,
        [.iterI 0, .readWord 0, .iterI 1, .readWord 1]⟩ ∧
    printBinaryCodeCArray pairHigh 1 start =
      .ok ⟨⟨"unsigned int lggc_1[2] = \x7b\n\t0x2,\n\t0x1\n\x7d;\n".toList, .hex, '0', 0⟩,
        [.iterI 0, .readWord 0, .iterI 1, .readWord 1]⟩ ∧
    "unsigned int lggc_1[2] = \x7b\n\t0x0,\n\t0x1\n\x7d;\n".toList ≠
      "unsigned int lggc_1[2] = \x7b\n\t0x2,\n\t0x1\n\x7d;\n".toList := by
  refine ⟨⟨by decide, by decide, by decide, by decide, ?_⟩, ?_, ?_, by decide⟩
  · intro i hi j hj
    have hi2 : i < 2 := hi
    have hj0 : j = 0 := by omega
    subst hj0
    interval_cases i
    · exact ⟨_, _, rfl, rfl, by decide⟩
    · exact ⟨_, _, rfl, rfl, by decide⟩
  · refine (printBinaryCodeCArray_eq pairClear 1 (by decide) (by decide) start rfl).trans ?_
    rfl
  · refine (printBinaryCodeCArray_eq pairHigh 1 (by decide) (by decide) start rfl).trans ?_
    rfl

/-- C7 as amended: for every width `w ≤ 20` and every two codes of at least `2^w`
codewords whose codewords agree on all 20 stored bits at every index below `2^w`,
`printBinaryCodeCArray` returns, and returns the same result (the same text) for both. -/
theorem printBinaryCodeCArray_same_words (codeA codeB : List Bitset20) (w : Nat)
    (m : Machine) (hw : w ≤ 20) (hlenA : 2 ^ w ≤ codeA.length) (hlenB : 2 ^ w ≤ codeB.length)
    (hagree : ∀ i, i < 2 ^ w → ∀ a b, codeA[i]? = some a → codeB[i]? = some b →
      ∀ j, j < 20 → a.test j = b.test j) :
    printBinaryCodeCArray codeA (w : Int) m = printBinaryCodeCArray codeB (w : Int) m ∧
      ∃ m', printBinaryCodeCArray codeA (w : Int) m = .ok m' := by
  refine ⟨?_, ?_⟩
  · simp only [printBinaryCodeCArray, maxNumOf_natCast w hw, Int.toNat_ofNat]
    rw [forLoop_congr (2 ^ w)
      (fun i m => emitElement codeA ((2 ^ w : Nat) : Int) (fieldWidthOf w) i (m.log (.iterI i)))
      (fun i m => emitElement codeB ((2 ^ w : Nat) : Int) (fieldWidthOf w) i (m.log (.iterI i)))
      ?_ (2 ^ w) 0 _ (Nat.sub_zero _)]
    intro k s hk
    have hA : codeA[k]? = some codeA[k] := List.getElem?_eq_getElem (by omega)
    have hB : codeB[k]? = some codeB[k] := List.getElem?_eq_getElem (by omega)
    have hv := val_eq_of_test_eq _ _ (hagree k hk _ _ hA hB)
    simp only [emitElement, readWord, hA, hB, hv]
  · obtain ⟨m', h, _⟩ := printBinaryCodeCArray_run codeA w hw hlenA m
    exact ⟨m', h⟩

/-- Witness of the amended C7: the Gray code 0, 1, 3, 2 at width 2, alone and followed
by a fifth codeword. -/
theorem printBinaryCodeCArray_same_words_witness :
    (2 ≤ 20 ∧ 2 ^ 2 ≤ gray2.length ∧ 2 ^ 2 ≤ gray2Longer.length ∧
      ∀ i, i < 2 ^ 2 → ∀ a b, gray2[i]? = some a → gray2Longer[i]? = some b →
        ∀ j, j < 20 → a.test j = b.test j) ∧
    (printBinaryCodeCArray gray2 ((2 : Nat) : Int) start =
        printBinaryCodeCArray gray2Longer ((2 : Nat) : Int) start ∧
      ∃ m', printBinaryCodeCArray gray2 ((2 : Nat) : Int) start = .ok m') :=
  have hagree : ∀ i, i < 2 ^ 2 → ∀ a b, gray2[i]? = some a → gray2Longer[i]? = some b →
      ∀ j, j < 20 → a.test j = b.test j := by
    intro i hi a b ha hb j _
    have hi4 : i < 4 := hi
    interval_cases i <;> simp [gray2, gray2Longer] at ha hb <;> subst ha <;> subst hb <;> rfl
  ⟨⟨by decide, by decide, by decide, hagree⟩,
    printBinaryCodeCArray_same_words gray2 gray2Longer 2 start (by decide) (by decide)
      (by decide) hagree⟩

/-! ## Statelessness -/

set_option maxRecDepth 20000 in
/-- C6, the failing input: `printBinaryCodeCArray` run twice in a row on one stream, with
the four-bit Gray code at width 4.  The first call writes the array length as `16`; it
leaves the stream in hexadecimal mode, so the second call writes the length as `10`, and
the two text blocks differ. -/
theorem printBinaryCodeCArray_twice_differs :
    ∃ m1 m2, printBinaryCodeCArray gray4 4 start = .ok m1 ∧
      printBinaryCodeCArray gray4 4 m1 = .ok m2 ∧
      written start.stream m1.stream =
        ("unsigned int lggc_4[16] = \x7b\n\t0x0,\n\t0x1,\n\t0x3,\n\t0x2,\n\t0x6,\n\t0x7," ++
          "\n\t0x5,\n\t0x4,\n\t0xc,\n\t0xd,\n\t0xf,\n\t0xe,\n\t0xa,\n\t0xb,\n\t0x9,\n\t0x8" ++
          "\n\x7d;\n").toList ∧
      written m1.stream m2.stream =
        ("unsigned int lggc_4[10] = \x7b\n\t0x0,\n\t0x1,\n\t0x3,\n\t0x2,\n\t0x6,\n\t0x7," ++
          "\n\t0x5,\n\t0x4,\n\t0xc,\n\t0xd,\n\t0xf,\n\t0xe,\n\t0xa,\n\t0xb,\n\t0x9,\n\t0x8" ++
          "\n\x7d;\n").toList ∧
      written start.stream m1.stream ≠ written m1.stream m2.stream := by
  have h1 := printBinaryCodeCArray_eq gray4 4 (by decide) (by decide) start rfl
  have h2 := printBinaryCodeCArray_eq gray4 4 (by decide) (by decide)
    ⟨⟨start.stream.out ++ arrayText start.stream.base gray4 4, .hex, '0', 0⟩,
      start.trace ++ aTrace 4⟩ rfl
  refine ⟨_, _, h1, h2, ?_, ?_, ?_⟩
  · decide
  · decide
  · decide

/-! ## The file functions -/

/-- C5, the failing input: when the file cannot be opened, `printBinaryCodeToFile` renders
nothing and leaves the error stream as it was: the failure is not reported. -/
theorem printBinaryCodeToFile_open_failure_unreported (code : List Bitset20) (bitWidth : Int)
    (filename : String) (vertical : Bool) (cerr : OStream) :
    printBinaryCodeToFile code bitWidth filename vertical (fun _ => false) cerr =
      .ok ⟨none, cerr⟩ := by
  simp [printBinaryCodeToFile]

/-! ## Safety of the container accesses -/

/-- C10, the claim as stated fails at width 0: on the empty code, which is shorter than
`2^0 = 1`, `printBinaryCode` and `printBinaryCodeVertical` return without any container
access (their logs hold no read), so no out-of-range access is reached. -/
theorem short_code_width_zero_counterexample :
    ([] : List Bitset20).length < 2 ^ 0 ∧
    printBinaryCode [] 0 start = .ok ⟨⟨['\n'], .dec, ' ', 0⟩, []⟩ ∧
    printBinaryCodeVertical [] 0 start = .ok ⟨⟨['\n', '\n'], .dec, ' ', 0⟩, [.iterI 0]⟩ := by
  refine ⟨by decide, ?_, ?_⟩
  · rw [printBinaryCode_width_zero]
    rfl
  · rw [printBinaryCodeVertical_width_zero]
    rfl

/-- C10 as amended: for `0 ≤ bitWidth ≤ 20`, on a code of at least `2^bitWidth`
codewords the three renderings return; the events they log are exactly `hTrace`, `vTrace`
and `aTrace`, in which every access is in range (`i` below the code length, `j` below 20)
and the loops over `i` run `2^bitWidth` iterations and the loops over `j` run `bitWidth`
iterations each time they are entered; `2^bitWidth` fits the `int` holding the array
length.  On a code shorter than `2^bitWidth` the access `code[code.size()]` is reached by
`printBinaryCodeCArray` at every width, and by `printBinaryCode` and
`printBinaryCodeVertical` at every width from 1 on. -/
theorem renderings_access_safety (code : List Bitset20) (w : Nat) (m : Machine)
    (hw : w ≤ 20) :
    (2 ^ w ≤ code.length →
      (∃ m', printBinaryCode code (w : Int) m = .ok m' ∧ m'.trace = m.trace ++ hTrace w) ∧
      (∃ m', printBinaryCodeVertical code (w : Int) m = .ok m' ∧
        m'.trace = m.trace ++ vTrace w) ∧
      (∃ m', printBinaryCodeCArray code (w : Int) m = .ok m' ∧
        m'.trace = m.trace ++ aTrace w) ∧
      (∀ e ∈ hTrace w ++ vTrace w ++ aTrace w, e.inRange code.length)) ∧
    ((hTrace w).countP Event.isIterJ = w ∧ (hTrace w).countP Event.isIterI = w * 2 ^ w ∧
      (hTrace w).countP Event.isRead = w * 2 ^ w) ∧
    ((vTrace w).countP Event.isIterI = 2 ^ w ∧ (vTrace w).countP Event.isIterJ = 2 ^ w * w ∧
      (vTrace w).countP Event.isRead = 2 ^ w * w) ∧
    ((aTrace w).countP Event.isIterI = 2 ^ w ∧ (aTrace w).countP Event.isRead = 2 ^ w) ∧
    (maxNumOf (w : Int) = .ok ((2 ^ w : Nat) : Int) ∧ 2 ^ w ≤ INT_MAX) ∧
    (code.length < 2 ^ w →
      printBinaryCodeCArray code (w : Int) m =
        .error (.vectorIndex code.length code.length) ∧
      (1 ≤ w →
        printBinaryCode code (w : Int) m = .error (.vectorIndex code.length code.length) ∧
        printBinaryCodeVertical code (w : Int) m =
          .error (.vectorIndex code.length code.length))) := by
  refine ⟨?_, hTrace_counts w, vTrace_counts w, aTrace_counts w,
    ⟨maxNumOf_natCast w hw, two_pow_le_INT_MAX hw⟩, ?_⟩
  · intro hlen
    obtain ⟨mh, hh, hth, _⟩ := printBinaryCode_run code w hw hlen m
    obtain ⟨mv, hv, htv, _⟩ := printBinaryCodeVertical_run code w hw hlen m
    obtain ⟨ma, ha, hta, _⟩ := printBinaryCodeCArray_run code w hw hlen m
    refine ⟨⟨mh, hh, hth⟩, ⟨mv, hv, htv⟩, ⟨ma, ha, hta⟩, ?_⟩
    intro e he
    simp only [List.mem_append] at he
    rcases he with (he | he) | he
    · exact hTrace_inRange w _ hw hlen e he
    · exact vTrace_inRange w _ hw hlen e he
    · exact aTrace_inRange w _ hlen e he
  · intro hshort
    exact ⟨printBinaryCodeCArray_short code w m hw hshort, fun hw1 =>
      ⟨printBinaryCode_short code w m hw1 hw hshort,
        printBinaryCodeVertical_short code w m hw1 hw hshort⟩⟩

/-- Witness of the amended C10: the Gray code 0, 1, 3, 2 at width 2 (long enough), and
the same code at width 3 (too short). -/
theorem renderings_access_safety_witness :
    (2 ≤ 20 ∧ 2 ^ 2 ≤ gray2.length ∧ 3 ≤ 20 ∧ gray2.length < 2 ^ 3 ∧ 1 ≤ 3) ∧
    ((∃ m', printBinaryCode gray2 ((2 : Nat) : Int) start = .ok m' ∧
        m'.trace = start.trace ++ hTrace 2) ∧
      (∃ m', printBinaryCodeVertical gray2 ((2 : Nat) : Int) start = .ok m' ∧
        m'.trace = start.trace ++ vTrace 2) ∧
      (∃ m', printBinaryCodeCArray gray2 ((2 : Nat) : Int) start = .ok m' ∧
        m'.trace = start.trace ++ aTrace 2) ∧
      (∀ e ∈ hTrace 2 ++ vTrace 2 ++ aTrace 2, e.inRange gray2.length)) ∧
    (printBinaryCodeCArray gray2 ((3 : Nat) : Int) start =
        .error (.vectorIndex gray2.length gray2.length) ∧
      printBinaryCode gray2 ((3 : Nat) : Int) start =
        .error (.vectorIndex gray2.length gray2.length) ∧
      printBinaryCodeVertical gray2 ((3 : Nat) : Int) start =
        .error (.vectorIndex gray2.length gray2.length)) :=
  have h3 := (renderings_access_safety gray2 3 start (by decide)).2.2.2.2.2 (by decide)
  ⟨⟨by decide, by decide, by decide, by decide, by decide⟩,
    (renderings_access_safety gray2 2 start (by decide)).1 (by decide),
    ⟨h3.1, (h3.2 (by decide)).1, (h3.2 (by decide)).2⟩⟩

end LGGC
